import Mathlib

/-!
Verification of the file-based key-value store in `store.py`.

The development shallowly embeds the Python module:
* a filesystem tree (`Node`/`Entries`) rooted at `/`, with files holding byte
  lists and directories holding ordered entry lists, models the directory tree
  the store operates on;
* the `os`/`os.path` primitives used by the code (`stat`, `mkdir`, `makedirs`,
  `remove`, `rmtree`, `walk`, `abspath`/`normpath`, `join`, `commonprefix`,
  string slicing) are translated to total Lean functions over that tree and
  over character lists;
* `fcntl.lockf(LOCK_EX|LOCK_NB)` is modelled by a set of currently locked
  paths carried in the system state (`Sys`); contention reports `EAGAIN`;
* the gzip codec (an external library) is modelled as an injective framed
  member encoding: each write-mode session appends one member, and the reader
  concatenates the payloads of consecutive members, as Python 2.7's
  `gzip.GzipFile` does; compression ratio is not modelled;
* `re.compile`/`RE.match` are modelled for the regex subset the development
  needs (literal characters, `.`, postfix `*`, the `^` and `$` anchors);
  `$` is modelled as end of input and `.` does not match a newline; patterns
  outside the subset are not modelled and are mapped to a generic error;
* error classes become the tagged type `Err`; exception message strings are
  not modelled.

Each `Database` method of the source becomes a state-passing function; error
paths return the state the operation left behind, so failure atomicity is a
provable property rather than an artifact of the embedding.
-/

namespace Store

/-- Byte strings, as lists of byte values. -/
abbrev Bytes := List Nat

/-- The errno values distinguished by the source (`errno.ENOENT`,
`errno.EISDIR`, `errno.ENOTDIR`, `errno.EEXIST`, `errno.EACCES`,
`errno.EAGAIN`) plus a representative unmapped value (`EBADF`). -/
inductive Errno where
  | enoent | eisdir | enotdir | eexist | eacces | eagain | ebadf
  deriving DecidableEq, Repr

/-- The exception kinds raised by the module: `Invalid`, `Locked`,
`DoesNotExist`, `NotAKey`, `NotAContainer`, the catch-all `Error`
(message strings are not modelled), and an uncaught OS-level error
propagating with its errno. -/
inductive Err where
  | invalid | locked | doesNotExist | notAKey | notAContainer
  | genericError
  | ioError (e : Errno)
  deriving DecidableEq, Repr

/-- Translation of `_check_error`: the errno-to-domain mapping, `none` when
the errno is unmapped (the caller then raises a generic `Error`). -/
def check_error (e : Errno) : Option Err :=
  match e with
  | .enoent => some .doesNotExist
  | .eisdir => some .notAKey
  | .enotdir => some .notAContainer
  | _ => none

/-- The `_check_error exc` / `raise Error(...)` idiom at the end of every
`except` clause: mapped errnos become their domain error, everything else a
generic `Error`. -/
def osErr (e : Errno) : Err := (check_error e).getD .genericError

/-! ### Path strings

The store works with absolute path strings.  The `os.path` functions the
source uses are translated to functions over `String`/`List Char`
(Python 2 paths are byte strings; keys are treated character-wise). -/

/-- Split a path string into its non-empty `/`-separated segments. -/
def splitSegsAux (cur : List Char) (acc : List String) : List Char → List String
  | [] => if cur.isEmpty then acc.reverse else (String.mk cur.reverse :: acc).reverse
  | c :: cs =>
    if c = '/' then
      if cur.isEmpty then splitSegsAux [] acc cs
      else splitSegsAux [] (String.mk cur.reverse :: acc) cs
    else splitSegsAux (c :: cur) acc cs

/-- Segments of a path string: maximal runs of non-`/` characters. -/
def segsOf (s : String) : List String := splitSegsAux [] [] s.data

/-- Translation of `os.path.normpath` restricted to absolute paths (the only
inputs the source produces): `.` segments are dropped and `..` removes the
preceding segment, never escaping above `/`. -/
def normSegs : List String → List String → List String
  | acc, [] => acc.reverse
  | acc, s :: rest =>
    if s = "." then normSegs acc rest
    else if s = ".." then normSegs (acc.drop 1) rest
    else normSegs (s :: acc) rest

/-- Rebuild an absolute path string from segments. -/
def joinSegs (l : List String) : String :=
  match l with
  | [] => "/"
  | _ => String.join (l.map (fun s => "/" ++ s))

/-- `os.path.abspath` on the already-absolute strings the source builds:
normalization of `.`/`..` segments. -/
def normpath (s : String) : String := joinSegs (normSegs [] (segsOf s))

/-- `s.startswith('/')`. -/
def startsSlash (s : String) : Bool :=
  match s.data with
  | [] => false
  | c :: _ => c = '/'

/-- `s.endswith('/')`. -/
def endsSlash (s : String) : Bool :=
  match s.data.getLast? with
  | some c => c = '/'
  | none => false

/-- Translation of `os.path.join` for two arguments. -/
def pjoin (a b : String) : String :=
  if startsSlash b then b
  else if a = "" ∨ endsSlash a then a ++ b
  else a ++ "/" ++ b

/-- Character-wise longest common prefix of two character lists, as computed
by `os.path.commonprefix` (which is a string operation, not a path one). -/
def commonPrefixChars : List Char → List Char → List Char
  | a :: as, b :: bs => if a = b then a :: commonPrefixChars as bs else []
  | _, _ => []

/-- Translation of `os.path.commonprefix((a, b))`. -/
def commonprefixOf (a b : String) : String :=
  String.mk (commonPrefixChars a.data b.data)

/-- Python string slicing `s[n:]` on ASCII strings. -/
def strDrop (s : String) (n : Nat) : String := String.mk (s.data.drop n)


/-! ### The filesystem tree -/

mutual
/-- A node of the filesystem: a regular file with its byte content, or a
directory with an ordered entry list (the listing order `os.listdir` /
`os.walk` observe). -/
inductive Node where
  | file (content : Bytes)
  | dir (entries : Entries)

/-- The entries of a directory: an ordered association list of names to
nodes. -/
inductive Entries where
  | nil
  | cons (name : String) (node : Node) (rest : Entries)
end

/-- First entry with the given name, as directory lookup resolves names. -/
def findEntry : Entries → String → Option Node
  | .nil, _ => none
  | .cons n t rest, s => if n = s then some t else findEntry rest s

/-- Replace the first entry with the given name, or append a new entry. -/
def setEntry : Entries → String → Node → Entries
  | .nil, s, t => .cons s t .nil
  | .cons n u rest, s, t =>
    if n = s then .cons s t rest else .cons n u (setEntry rest s t)

/-- Remove the first entry with the given name. -/
def delEntry : Entries → String → Entries
  | .nil, _ => .nil
  | .cons n u rest, s => if n = s then rest else .cons n u (delEntry rest s)

/-- Whether some entry has the given name. -/
def hasName : Entries → String → Bool
  | .nil, _ => false
  | .cons n _ rest, s => n = s || hasName rest s

/-- Names of the directory entries, in listing order. -/
def entryNames : Entries → List String
  | .nil => []
  | .cons n _ rest => n :: entryNames rest

/-- Subdirectory names, in listing order (the `dirnames` of `os.walk`). -/
def dirNames : Entries → List String
  | .nil => []
  | .cons n (.dir _) rest => n :: dirNames rest
  | .cons _ (.file _) rest => dirNames rest

/-- Plain-file names, in listing order (the `filenames` of `os.walk`). -/
def fileNames : Entries → List String
  | .nil => []
  | .cons n (.file _) rest => n :: fileNames rest
  | .cons _ (.dir _) rest => fileNames rest

mutual
/-- Well-formedness of a tree: no directory lists the same name twice. -/
def nodeWF : Node → Bool
  | .file _ => true
  | .dir es => (entryNames es).Nodup && entriesWF es

/-- Well-formedness of every node of an entry list. -/
def entriesWF : Entries → Bool
  | .nil => true
  | .cons _ t rest => nodeWF t && entriesWF rest
end

/-- Translation of `os.stat` path resolution: walk the segments from the
tree root; a missing component gives `ENOENT`, a plain file met where a
directory is needed gives `ENOTDIR`. -/
def statPath : Node → List String → Except Errno Node
  | t, [] => .ok t
  | .file _, _ :: _ => .error .enotdir
  | .dir es, s :: rest =>
    match findEntry es s with
    | none => .error .enoent
    | some t => statPath t rest

/-- Translation of `os.path.exists`: `stat` succeeds (any failure, including
`ENOTDIR`, reads as absent). -/
def pexists (t : Node) (p : List String) : Bool :=
  match statPath t p with
  | .ok _ => true
  | .error _ => false

/-- Translation of `os.path.isfile`. -/
def isfileB (t : Node) (p : List String) : Bool :=
  match statPath t p with
  | .ok (.file _) => true
  | _ => false

/-- Translation of `os.path.isdir`. -/
def isdirB (t : Node) (p : List String) : Bool :=
  match statPath t p with
  | .ok (.dir _) => true
  | _ => false

/-- Content of the regular file at a path, `none` when no such file. -/
def fileAt (t : Node) (p : List String) : Option Bytes :=
  match statPath t p with
  | .ok (.file c) => some c
  | _ => none

/-! ### Mutating OS primitives -/

/-- Translation of `os.makedirs`, the recursive directory creation: Python
recurses on the parent before `mkdir` of the leaf; written here as the
equivalent top-down traversal, it creates every missing directory along the
path, fails with `ENOTDIR` when a component is a plain file and with
`EEXIST` when the leaf already exists.  On every failure nothing has been
created (a blocking file or existing leaf stops the recursion before any
`mkdir` it would perform). -/
def makedirs : Node → List String → Except Errno Node
  | _, [] => .error .eexist
  | .file _, _ :: _ => .error .enotdir
  | .dir es, [leaf] =>
    match findEntry es leaf with
    | some _ => .error .eexist
    | none => .ok (.dir (setEntry es leaf (.dir .nil)))
  | .dir es, a :: b :: rest =>
    match findEntry es a with
    | none =>
      match makedirs (.dir .nil) (b :: rest) with
      | .ok t' => .ok (.dir (setEntry es a t'))
      | .error e => .error e
    | some t =>
      match makedirs t (b :: rest) with
      | .ok t' => .ok (.dir (setEntry es a t'))
      | .error e => .error e

/-- Translation of `os.remove`: unlink the regular file at the path;
`ENOENT` when absent, `EISDIR` when the path is a directory (the Linux
behaviour the errno mapping of `_check_error` is written for), `ENOTDIR`
when a component is a plain file. -/
def removeFile : Node → List String → Except Errno Node
  | _, [] => .error .eisdir
  | .file _, _ :: _ => .error .enotdir
  | .dir es, [leaf] =>
    match findEntry es leaf with
    | none => .error .enoent
    | some (.dir _) => .error .eisdir
    | some (.file _) => .ok (.dir (delEntry es leaf))
  | .dir es, a :: b :: rest =>
    match findEntry es a with
    | none => .error .enoent
    | some t =>
      match removeFile t (b :: rest) with
      | .error e => .error e
      | .ok t' => .ok (.dir (setEntry es a t'))

/-- Translation of `shutil.rmtree`: remove the directory at the path with
everything under it; `ENOENT` when absent, `ENOTDIR` when the path (or a
component) is a plain file (`os.listdir` fails so).  Removal of the
filesystem root itself is not reachable through the store and is mapped to
`ENOTDIR`. -/
def rmtree : Node → List String → Except Errno Node
  | .file _, _ => .error .enotdir
  | .dir _, [] => .error .enotdir
  | .dir es, [leaf] =>
    match findEntry es leaf with
    | none => .error .enoent
    | some (.file _) => .error .enotdir
    | some (.dir _) => .ok (.dir (delEntry es leaf))
  | .dir es, a :: b :: rest =>
    match findEntry es a with
    | none => .error .enoent
    | some t =>
      match rmtree t (b :: rest) with
      | .error e => .error e
      | .ok t' => .ok (.dir (setEntry es a t'))

/-- Place a node at a path whose parent directories already exist (used
only under that guarantee); an untraversable path leaves the tree
unchanged. -/
def putNode : Node → List String → Node → Node
  | _, [], nw => nw
  | .file c, _ :: _, _ => .file c
  | .dir es, [leaf], nw => .dir (setEntry es leaf nw)
  | .dir es, a :: b :: rest, nw =>
    match findEntry es a with
    | none => .dir es
    | some t => .dir (setEntry es a (putNode t (b :: rest) nw))

/-- Apply a function to the content of the regular file at a path (the
commit of buffered handle writes); anything else leaves the tree
unchanged. -/
def writeBack : Node → List String → (Bytes → Bytes) → Node
  | t, [], _ => t
  | .file c, _ :: _, _ => .file c
  | .dir es, [leaf], f =>
    match findEntry es leaf with
    | some (.file c) => .dir (setEntry es leaf (.file (f c)))
    | _ => .dir es
  | .dir es, a :: b :: rest, f =>
    match findEntry es a with
    | none => .dir es
    | some t => .dir (setEntry es a (writeBack t (b :: rest) f))

/-- Translation of the Python builtin `file(filename, mode+'b')`: `r`/`r+`
need an existing regular file (`ENOENT` otherwise, `EISDIR` on a
directory); `w`/`w+` create or truncate; `a` creates when absent and keeps
the content otherwise; a plain file along the path gives `ENOTDIR`. -/
inductive Mode where
  | r | w | a | rPlus | wPlus
  deriving DecidableEq, Repr

def fopen : Node → List String → Mode → Except Errno Node
  | .file _, _ :: _, _ => .error .enotdir
  | .file _, [], _ => .error .eisdir
  | .dir _, [], _ => .error .eisdir
  | .dir es, [leaf], m =>
    match findEntry es leaf with
    | some (.dir _) => .error .eisdir
    | some (.file _) =>
      match m with
      | .w | .wPlus => .ok (.dir (setEntry es leaf (.file [])))
      | _ => .ok (.dir es)
    | none =>
      match m with
      | .r | .rPlus => .error .enoent
      | _ => .ok (.dir (setEntry es leaf (.file [])))
  | .dir es, a :: b :: rest, m =>
    match findEntry es a with
    | none => .error .enoent
    | some t =>
      match fopen t (b :: rest) m with
      | .error e => .error e
      | .ok t' => .ok (.dir (setEntry es a t'))

/-! ### `os.walk` -/

mutual
/-- Translation of `os.walk` (top-down, default error swallowing): yield
`(dirpath, dirnames, filenames)` for this directory, then recurse into the
subdirectories in listing order. -/
def walkNode (dirpath : String) : Node → List (String × List String × List String)
  | .file _ => []
  | .dir es => (dirpath, dirNames es, fileNames es) :: walkSubs dirpath es

/-- Walks of the subdirectories of an entry list, in listing order. -/
def walkSubs (dirpath : String) : Entries → List (String × List String × List String)
  | .nil => []
  | .cons n t rest =>
    (match t with
     | .dir _ => walkNode (pjoin dirpath n) t
     | .file _ => []) ++ walkSubs dirpath rest
end

/-! ### The gzip codec

Modelled from the external `gzip` library: a write-mode `GzipFile` session
frames its payload as one member; `GzipFile` in read mode concatenates the
payloads of the consecutive members of the file (Python 2.7 semantics).
The model uses an injective length-prefixed framing behind the real magic
bytes `\x1f\x8b`; the compression itself (ratio, level) is not modelled. -/

/-- Self-delimiting unary length header used by the modelled framing. -/
def encLen (n : Nat) : Bytes := List.replicate n 1 ++ [0]

/-- One framed gzip member with the given payload. -/
def gzipMember (v : Bytes) : Bytes := 31 :: 139 :: (encLen v.length ++ v)

/-- Parse the unary length header. -/
def parseLen : Bytes → Option (Nat × Bytes)
  | 0 :: rest => some (0, rest)
  | 1 :: rest =>
    match parseLen rest with
    | some (n, r) => some (n + 1, r)
    | none => none
  | _ => none

/-- Take exactly `n` bytes. -/
def takeN : Nat → Bytes → Option (Bytes × Bytes)
  | 0, b => some ([], b)
  | _ + 1, [] => none
  | n + 1, c :: cs =>
    match takeN n cs with
    | some (v, r) => some (c :: v, r)
    | none => none

/-- Read-mode decoding: concatenate the payloads of the consecutive
members; `none` models the `IOError` the decoder raises on malformed
data.  The fuel argument only bounds the recursion; `decodeMembers`
supplies enough for any input. -/
def decodeAux : Nat → Bytes → Option Bytes
  | _, [] => some []
  | 0, _ :: _ => none
  | f + 1, 31 :: 139 :: rest =>
    match parseLen rest with
    | none => none
    | some (n, r1) =>
      match takeN n r1 with
      | none => none
      | some (v, r2) =>
        match decodeAux f r2 with
        | none => none
        | some tail => some (v ++ tail)
  | _ + 1, _ => none

def decodeMembers (b : Bytes) : Option Bytes := decodeAux b.length b

/-- On-disk representation of one buffered write session: a gzip member
when the handle compresses, the raw bytes otherwise. -/
def encC (c : Bool) (v : Bytes) : Bytes := if c then gzipMember v else v

/-- What reading the whole file yields for a given compress flag. -/
def readC (c : Bool) (content : Bytes) : Option Bytes :=
  if c then decodeMembers content else some content

/-! ### Regular expressions

Model of `re.compile` / `RE.match` for the subset of syntax the development
exercises: literal characters, `.`, a postfix `*` on either, and the `^`/`$`
anchors.  `RE.match` anchors at the start of the candidate string, matches
any prefix (it is not `search` and not a full match), `.` does not match a
newline, and `$` asserts the end of the input. -/

/-- A single-character regex atom. -/
inductive Atom where
  | ach (c : Char)
  | adot
  deriving DecidableEq, Repr

/-- One token of a parsed pattern: an anchor, or an atom with or without a
postfix `*`. -/
inductive Tok where
  | bol | eol
  | tok (a : Atom) (star : Bool)
  deriving DecidableEq, Repr

/-- Characters that are regex metasyntax outside the modelled subset. -/
def metaChar (c : Char) : Bool :=
  c = '(' ∨ c = ')' ∨ c = '[' ∨ c = ']' ∨ c = '+' ∨ c = '?' ∨ c = '|' ∨
    c = '\\' ∨ c = '^' ∨ c = '$' ∨ c = '*'

/-- An atom for a pattern character, `none` on unmodelled metasyntax. -/
def atomOf (c : Char) : Option Atom :=
  if c = '.' then some .adot
  else if metaChar c then none
  else some (.ach c)

/-- Parse a pattern into tokens; `none` for patterns outside the modelled
subset. -/
def parsePat : List Char → Option (List Tok)
  | [] => some []
  | '^' :: rest =>
    match parsePat rest with
    | some ts => some (.bol :: ts)
    | none => none
  | '$' :: rest =>
    match parsePat rest with
    | some ts => some (.eol :: ts)
    | none => none
  | c :: '*' :: rest =>
    match atomOf c, parsePat rest with
    | some a, some ts => some (.tok a true :: ts)
    | _, _ => none
  | c :: rest =>
    match atomOf c, parsePat rest with
    | some a, some ts => some (.tok a false :: ts)
    | _, _ => none

/-- Whether an atom matches one character (`.` excludes the newline, as
`re` without `DOTALL`). -/
def amatch (a : Atom) (c : Char) : Bool :=
  match a with
  | .ach x => x = c
  | .adot => c ≠ '\n'

/-- The backtracking matcher behind `RE.match`, anchored at position `n`
of the original string with `s` the remaining input; an exhausted pattern
succeeds (any prefix match is a match).  The fuel argument only bounds the
recursion; every step shortens `toks` or `s`, so `reMatch` always supplies
enough. -/
def matchToksF : Nat → List Tok → Nat → List Char → Bool
  | _, [], _, _ => true
  | 0, _ :: _, _, _ => false
  | f + 1, .bol :: ps, n, s => n == 0 && matchToksF f ps n s
  | f + 1, .eol :: ps, n, s => s.isEmpty && matchToksF f ps n s
  | f + 1, .tok a false :: ps, n, s =>
    match s with
    | [] => false
    | c :: cs => amatch a c && matchToksF f ps (n + 1) cs
  | f + 1, .tok a true :: ps, n, s =>
    matchToksF f ps n s ||
      match s with
      | [] => false
      | c :: cs => amatch a c && matchToksF f (.tok a true :: ps) (n + 1) cs

/-- Truthiness of `RE.match(s)` for a parsed pattern. -/
def reMatch (toks : List Tok) (s : String) : Bool :=
  matchToksF (s.data.length + toks.length + 1) toks 0 s.data

/-! ### Locking and the system state -/

/-- The system state: the filesystem tree rooted at `/`, and the set of
paths on which some open handle currently holds the advisory exclusive
lock.  Entries of `locks` not added by the operation under study model
other holders (other processes or other open handles). -/
structure Sys where
  fs : Node
  locks : List (List String)

/-- Remove the first occurrence (a handle holds at most one lock on its
path, so release removes one). -/
def eraseFirst : List (List String) → List String → List (List String)
  | [], _ => []
  | x :: xs, p => if x = p then xs else x :: eraseFirst xs p

/-- Model of `fcntl.lockf(f, LOCK_EX|LOCK_NB)`: `EAGAIN` exactly when
another holder currently has the lock on that path, otherwise the lock is
acquired. -/
def lockf (sys : Sys) (p : List String) : Except Errno Sys :=
  if p ∈ sys.locks then .error .eagain
  else .ok { sys with locks := p :: sys.locks }

/-- Translation of `_lock`'s `except IOError` clause: `EACCES`/`EAGAIN`
become `Locked`, any other `IOError` is re-raised unchanged. -/
def lockTranslate (r : Except Errno Sys) : Except Err Sys :=
  match r with
  | .ok s => .ok s
  | .error e => if e = .eacces || e = .eagain then .error .locked else .error (.ioError e)

/-- Translation of `_lock`. -/
def lockOp (sys : Sys) (p : List String) : Except Err Sys :=
  lockTranslate (lockf sys p)

/-! ### The Database facade -/

/-- A `Database` object: its `location` attribute (already
`os.path.abspath`-ed by `__init__`). -/
structure DB where
  loc : String

/-- Translation of `Database._within_base`:
`os.path.commonprefix((self.location, filename)) == self.location`.  Note
this is a character-wise prefix test. -/
def within_base (loc fn : String) : Bool := commonprefixOf loc fn == loc

/-- Translation of `Database._make_path`: strip one leading `/`, join to
the location, normalize, and raise `Invalid` when the result fails
`_within_base`. -/
def make_path (loc p : String) : Except Err String :=
  let p := if startsSlash p then strDrop p 1 else p
  let dst := normpath (pjoin loc p)
  if within_base loc dst then .ok dst else .error .invalid

/-- Translation of `Database.get_fullname`: a trailing `/` is `Invalid`,
otherwise `_make_path`. -/
def get_fullname (loc p : String) : Except Err String :=
  if endsSlash p then .error .invalid else make_path loc p

/-- An open handle as the store sees it: the resolved path, the open mode,
the compress flag, and the bytes written through it so far (committed on
close, which is when a compressed member is completed; the raw-mode commit
at close is observationally the same for the sequential compositions the
facade performs). -/
structure Handle where
  segs : List String
  mode : Mode
  compress : Bool
  buf : Bytes

/-- Translation of `_makedirs` applied to a resolved fullname: no-op when
the full path exists, `Error` when the fullname is the bare root (empty
basename), no-op when the parent exists, otherwise `os.makedirs` of the
parent with OS failures translated by the caller's `except` clause. -/
def makedirsM (fs : Node) (ps : List String) : Except Err Node :=
  if pexists fs ps then .ok fs
  else
    match ps with
    | [] => .error .genericError
    | _ =>
      if pexists fs ps.dropLast then .ok fs
      else
        match makedirs fs ps.dropLast with
        | .ok fs' => .ok fs'
        | .error e => .error (osErr e)

/-- A re-raised `IOError` escaping `_lock` inside `Database.open` is caught
by `open`'s `except` clause and translated; `Locked` is not an `IOError`
and propagates. -/
def lockInOpen (sys : Sys) (p : List String) : Except Err Sys :=
  match lockOp sys p with
  | .ok s => .ok s
  | .error (.ioError e) => .error (osErr e)
  | .error e => .error e

/-- Translation of `Database.open`.  Order as in the source: resolve the
key (`Invalid` propagates), create intermediate directories for any
non-read mode (this mutation persists when a later step fails), open the
file, then acquire the lock for any non-read mode.  The compression wrapper
adds no effect at open time. -/
def openOp (db : DB) (key : String) (m : Mode) (cmp : Bool) (sys : Sys) :
    Except Err Handle × Sys :=
  match get_fullname db.loc key with
  | .error e => (.error e, sys)
  | .ok fn =>
    let ps := segsOf fn
    match (if m = .r then .ok sys.fs else makedirsM sys.fs ps : Except Err Node) with
    | .error e => (.error e, sys)
    | .ok fs1 =>
      match fopen fs1 ps m with
      | .error e => (.error (osErr e), { sys with fs := fs1 })
      | .ok fs2 =>
        let sys2 : Sys := { sys with fs := fs2 }
        if m = .r then (.ok ⟨ps, m, cmp, []⟩, sys2)
        else
          match lockInOpen sys2 ps with
          | .error e => (.error e, sys2)
          | .ok sys3 => (.ok ⟨ps, m, cmp, []⟩, sys3)

/-- Write through a handle: bytes are buffered until close. -/
def hwrite (h : Handle) (v : Bytes) : Handle := { h with buf := h.buf ++ v }

/-- Whether closing commits a write (write-capable `GzipFile`/file modes;
`r+` is used by the facade only for reading). -/
def writesOnClose (m : Mode) : Bool :=
  match m with
  | .w | .a | .wPlus => true
  | _ => false

/-- Close a handle: commit the buffered session (one gzip member when
compressed) and release the lock taken for non-read modes. -/
def hclose (h : Handle) (sys : Sys) : Sys :=
  { fs :=
      if writesOnClose h.mode then
        writeBack sys.fs h.segs (fun old => old ++ encC h.compress h.buf)
      else sys.fs,
    locks := if h.mode = .r then sys.locks else eraseFirst sys.locks h.segs }

/-- Read the whole file through a handle (from position 0, where `r`/`r+`
leave it); a compressed read decodes the members, a failure standing for
the decoder's `IOError` which `get` wraps into `Error`. -/
def hread (h : Handle) (sys : Sys) : Except Err Bytes :=
  match fileAt sys.fs h.segs with
  | none => .error .genericError
  | some content =>
    match readC h.compress content with
    | some v => .ok v
    | none => .error .genericError

/-- Translation of `Database.exists`. -/
def existsOp (db : DB) (p : String) (sys : Sys) : Except Err Bool :=
  match get_fullname db.loc p with
  | .error e => .error e
  | .ok fn => .ok (pexists sys.fs (segsOf fn))

/-- Translation of `Database.is_key`. -/
def is_key (db : DB) (p : String) (sys : Sys) : Except Err Bool :=
  match get_fullname db.loc p with
  | .error e => .error e
  | .ok fn => .ok (isfileB sys.fs (segsOf fn))

/-- Translation of `Database.is_container`. -/
def is_container (db : DB) (p : String) (sys : Sys) : Except Err Bool :=
  match get_fullname db.loc p with
  | .error e => .error e
  | .ok fn => .ok (isdirB sys.fs (segsOf fn))

/-- The `st_size` a successful stat reports: the byte count for a regular
file; for a directory the platform-specific value is modelled as 0 (the
point is that stat succeeds on a directory). -/
def statSize : Node → Nat
  | .file c => c.length
  | .dir _ => 0

/-- Translation of `Database.getsize`: `os.path.getsize` is stat-based, so
it succeeds on directories too; failures go through `_check_error`. -/
def getsizeOp (db : DB) (p : String) (sys : Sys) : Except Err Nat :=
  match get_fullname db.loc p with
  | .error e => .error e
  | .ok fn =>
    match statPath sys.fs (segsOf fn) with
    | .ok t => .ok (statSize t)
    | .error e => .error (osErr e)

/-- Translation of `Database.getmtime`: stat-based like `getsize`; the
modification time value itself is not modelled (0 for every node), only
the success/error behaviour is. -/
def getmtimeOp (db : DB) (p : String) (sys : Sys) : Except Err Nat :=
  match get_fullname db.loc p with
  | .error e => .error e
  | .ok t =>
    match statPath sys.fs (segsOf t) with
    | .ok _ => .ok 0
    | .error e => .error (osErr e)

/-- Translation of `Database.delete`: `os.remove` of the resolved key. -/
def delete (db : DB) (key : String) (sys : Sys) : Except Err Unit × Sys :=
  match get_fullname db.loc key with
  | .error e => (.error e, sys)
  | .ok fn =>
    match removeFile sys.fs (segsOf fn) with
    | .error e => (.error (osErr e), sys)
    | .ok fs' => (.ok (), { sys with fs := fs' })

/-- Translation of `Database.drop`: module-level `drop` (`shutil.rmtree`)
of the resolved path. -/
def dropOp (db : DB) (p : String) (sys : Sys) : Except Err Unit × Sys :=
  match get_fullname db.loc p with
  | .error e => (.error e, sys)
  | .ok fn =>
    match rmtree sys.fs (segsOf fn) with
    | .error e => (.error (osErr e), sys)
    | .ok fs' => (.ok (), { sys with fs := fs' })

/-- Translation of `Database.create_container`: fail loudly when anything
already exists at the path, else `os.makedirs`. -/
def create_container (db : DB) (p : String) (sys : Sys) : Except Err Unit × Sys :=
  match existsOp db p sys with
  | .error e => (.error e, sys)
  | .ok true => (.error .genericError, sys)
  | .ok false =>
    match get_fullname db.loc p with
    | .error e => (.error e, sys)
    | .ok fn =>
      match makedirs sys.fs (segsOf fn) with
      | .error _ => (.error .genericError, sys)
      | .ok fs' => (.ok (), { sys with fs := fs' })

/-- Translation of `Database.put`: open write-truncate, write, close.  The
`except (IOError, OSError)` clause of `put` never sees the translated
domain exceptions coming out of `open`, so they pass through unchanged. -/
def put (db : DB) (key : String) (v : Bytes) (cmp : Bool) (sys : Sys) :
    Except Err Unit × Sys :=
  match openOp db key .w cmp sys with
  | (.error e, sys') => (.error e, sys')
  | (.ok h, sys1) => (.ok (), hclose (hwrite h v) sys1)

/-- Translation of `Database.append`: open append, write, close. -/
def appendOp (db : DB) (key : String) (v : Bytes) (cmp : Bool) (sys : Sys) :
    Except Err Unit × Sys :=
  match openOp db key .a cmp sys with
  | (.error e, sys') => (.error e, sys')
  | (.ok h, sys1) => (.ok (), hclose (hwrite h v) sys1)

/-- Translation of `Database.get`: open in read-write mode (so the lock is
taken), read everything, close, return the bytes; a decoder `IOError` is
wrapped into `Error` by `get`'s `except` clause (the handle is modelled as
released then, its reference being dropped). -/
def getOp (db : DB) (key : String) (cmp : Bool) (sys : Sys) :
    Except Err Bytes × Sys :=
  match openOp db key .rPlus cmp sys with
  | (.error e, sys') => (.error e, sys')
  | (.ok h, sys1) =>
    match hread h sys1 with
    | .error e => (.error e, hclose h sys1)
    | .ok v => (.ok v, hclose h sys1)

/-! ### `Database.create` and `Database.find` -/

/-- Longest entry name length of a directory. -/
def maxNameLen : Entries → Nat
  | .nil => 0
  | .cons n _ rest => max n.length (maxNameLen rest)

/-- Candidate basename for the temp file. -/
def tmpName (pre suf : String) (i : Nat) : String :=
  pre ++ String.mk (List.replicate i 'X') ++ suf

/-- Modelled from the external `tempfile.mkstemp` primitive: atomically
create a brand-new uniquely named file in the directory.  The model picks
the deterministic fresh name `pre ++ "X"*(maxNameLen+1) ++ suf`, which is
longer than every existing entry name and hence new; the real primitive
chooses random names but guarantees exactly this freshness.  A missing
directory gives `ENOENT`, a plain file `ENOTDIR`. -/
def mkstemp (fs : Node) (dirSegs : List String) (pre suf : String) :
    Except Errno (String × Node) :=
  match statPath fs dirSegs with
  | .ok (.dir es) =>
    let name := tmpName pre suf (maxNameLen es + 1)
    .ok (name, putNode fs dirSegs (.dir (setEntry es name (.file []))))
  | .ok (.file _) => .error .enotdir
  | .error e => .error e

/-- The container `Database.create` resolves: `location` when the `path`
argument is `None` or falsy, else its fullname. -/
def createDst (db : DB) (path : Option String) : Except Err String :=
  match path with
  | some p => if p = "" then .ok db.loc else get_fullname db.loc p
  | none => .ok db.loc

/-- Translation of `Database.create`: resolve the container, create it when
missing, default the suffix to `.gz` when compressing, `mkstemp` a fresh
key, open its handle in `w+` mode and lock it.  Directory creation persists
on later failure; OS failures in the first stage raise a plain `Error`. -/
def create (db : DB) (path : Option String) (cmp : Bool) (pre suf : String)
    (sys : Sys) : Except Err (String × Handle) × Sys :=
  match createDst db path with
  | .error e => (.error e, sys)
  | .ok dst =>
    let ds := segsOf dst
    match (if pexists sys.fs ds then .ok sys.fs else makedirs sys.fs ds :
        Except Errno Node) with
    | .error _ => (.error .genericError, sys)
    | .ok fs1 =>
      let suf := if cmp && suf = "" then ".gz" else suf
      match mkstemp fs1 ds pre suf with
      | .error _ => (.error .genericError, { sys with fs := fs1 })
      | .ok (name, fs2) =>
        let filename := pjoin dst name
        let key := strDrop filename (db.loc.length + 1)
        let sys2 : Sys := { sys with fs := fs2 }
        match lockInOpen sys2 (ds ++ [name]) with
        | .error e => (.error e, sys2)
        | .ok sys3 => (.ok (key, ⟨ds ++ [name], .wPlus, cmp, []⟩), sys3)

/-- The `(tbl, filename)` pairs `Database.find` enumerates before its
pattern test: for each `os.walk` entry under `dst`, the relative directory
`dirpath[len(dst)+1:]` (re-prefixed with the `path` argument when truthy)
joined with each plain-file name.  `tbl` is what `find` yields, `filename`
the bare name it matches when `match_path` is false. -/
def findCandidates (dst : String) (path : Option String) (fs : Node) :
    List (String × String) :=
  let l := dst.length
  let walked :=
    match statPath fs (segsOf dst) with
    | .ok t => walkNode dst t
    | .error _ => []
  (walked.map (fun w =>
    let d := strDrop w.1 (l + 1)
    let d :=
      match path with
      | some p => if p ≠ "" then pjoin p d else d
      | none => d
    w.2.2.map (fun fn => (pjoin d fn, fn)))).flatten

/-- The directory `Database.find` starts its walk from: the location when
`path` is `None`, else its fullname. -/
def findDst (db : DB) (path : Option String) : Except Err String :=
  match path with
  | none => .ok db.loc
  | some p => get_fullname db.loc p

/-- Translation of `Database.find`, viewed at consumption time (the source
returns a lazy generator; this is the list it yields, or the exception its
first advance raises).  Patterns outside the modelled regex subset are not
modelled and map to a generic error. -/
def findOp (db : DB) (pattern : String) (path : Option String) (mp : Bool)
    (sys : Sys) : Except Err (List String) :=
  match findDst db path with
  | .error e => .error e
  | .ok dst =>
    match parsePat pattern.data with
    | none => .error .genericError
    | some toks =>
      .ok ((findCandidates dst path sys.fs).filterMap
        (fun c => if reMatch toks (if mp then c.1 else c.2) then some c.1 else none))

end Store

namespace Store

/-! ## Lemmas about directory entries -/

theorem findEntry_setEntry_self : ∀ (es : Entries) (s : String) (t : Node),
    findEntry (setEntry es s t) s = some t
  | .nil, s, t => by simp [setEntry, findEntry]
  | .cons n u rest, s, t => by
    by_cases h : n = s <;>
      simp [setEntry, findEntry, h, findEntry_setEntry_self rest s t]

theorem findEntry_setEntry_ne : ∀ (es : Entries) (s x : String) (t : Node),
    x ≠ s → findEntry (setEntry es s t) x = findEntry es x
  | .nil, s, x, t, h => by simp [setEntry, findEntry, Ne.symm h]
  | .cons n u rest, s, x, t, h => by
    by_cases hn : n = s
    · subst hn
      simp [setEntry, findEntry, Ne.symm h]
    · by_cases hx : n = x <;>
        simp [setEntry, findEntry, hn, hx, h, findEntry_setEntry_ne rest s x t h]

theorem setEntry_self : ∀ (es : Entries) (s : String) (t : Node),
    findEntry es s = some t → setEntry es s t = es
  | .nil, s, t, h => by simp [findEntry] at h
  | .cons n u rest, s, t, h => by
    by_cases hn : n = s
    · subst hn
      simp [findEntry] at h
      simp [setEntry, h]
    · simp [findEntry, hn] at h
      simp [setEntry, hn, setEntry_self rest s t h]

theorem findEntry_delEntry_ne : ∀ (es : Entries) (s x : String),
    x ≠ s → findEntry (delEntry es s) x = findEntry es x
  | .nil, s, x, h => by simp [delEntry]
  | .cons n u rest, s, x, h => by
    by_cases hn : n = s
    · subst hn
      simp [delEntry, findEntry, Ne.symm h]
    · by_cases hx : n = x <;>
        simp [delEntry, findEntry, hn, hx, h, findEntry_delEntry_ne rest s x h]

theorem hasName_eq_isSome : ∀ (es : Entries) (s : String),
    hasName es s = (findEntry es s).isSome
  | .nil, _ => by simp [hasName, findEntry]
  | .cons n u rest, s => by
    by_cases hn : n = s <;> simp [hasName, findEntry, hn, hasName_eq_isSome rest s]

theorem mem_entryNames_of_findEntry : ∀ (es : Entries) (s : String) (t : Node),
    findEntry es s = some t → s ∈ entryNames es
  | .nil, s, t, h => by simp [findEntry] at h
  | .cons n u rest, s, t, h => by
    by_cases hn : n = s
    · simp [entryNames, hn]
    · simp [findEntry, hn] at h
      simp [entryNames, mem_entryNames_of_findEntry rest s t h]

theorem findEntry_delEntry_self : ∀ (es : Entries) (s : String),
    (entryNames es).Nodup → findEntry (delEntry es s) s = none
  | .nil, s, _ => by simp [delEntry, findEntry]
  | .cons n u rest, s, hd => by
    simp [entryNames] at hd
    by_cases hn : n = s
    · subst hn
      simp [delEntry]
      cases hfind : findEntry rest n with
      | none => rfl
      | some t => exact absurd (mem_entryNames_of_findEntry rest n t hfind) hd.1
    · simp [delEntry, findEntry, hn, findEntry_delEntry_self rest s hd.2]

theorem length_le_maxNameLen_of_findEntry : ∀ (es : Entries) (s : String) (t : Node),
    findEntry es s = some t → s.length ≤ maxNameLen es
  | .nil, s, t, h => by simp [findEntry] at h
  | .cons n u rest, s, t, h => by
    by_cases hn : n = s
    · subst hn
      simp [maxNameLen]
    · simp [findEntry, hn] at h
      simp [maxNameLen]
      exact Or.inr (length_le_maxNameLen_of_findEntry rest s t h)

theorem findEntry_eq_none_of_long (es : Entries) (s : String)
    (h : maxNameLen es < s.length) : findEntry es s = none := by
  cases hfind : findEntry es s with
  | none => rfl
  | some t =>
    exact absurd (length_le_maxNameLen_of_findEntry es s t hfind) (Nat.not_le.mpr h)

theorem nodeWF_of_findEntry : ∀ (es : Entries) (s : String) (t : Node),
    entriesWF es = true → findEntry es s = some t → nodeWF t = true
  | .nil, s, t, _, h => by simp [findEntry] at h
  | .cons n u rest, s, t, hwf, h => by
    rw [entriesWF] at hwf
    simp at hwf
    by_cases hn : n = s
    · simp [findEntry, hn] at h
      exact h ▸ hwf.1
    · simp [findEntry, hn] at h
      exact nodeWF_of_findEntry rest s t hwf.2 h

/-- The name of the modelled `mkstemp` is longer than every entry name, so
it is fresh. -/
theorem tmpName_length (pre suf : String) (i : Nat) :
    (tmpName pre suf i).length = pre.length + i + suf.length := by
  have h : (String.mk (List.replicate i 'X')).length = i := by
    show (List.replicate i 'X').length = i
    simp
  simp [tmpName, String.length_append, h]

theorem findEntry_tmpName_fresh (es : Entries) (pre suf : String) :
    findEntry es (tmpName pre suf (maxNameLen es + 1)) = none := by
  apply findEntry_eq_none_of_long
  rw [tmpName_length]
  omega

end Store
namespace Store

/-! ## Path-step lemmas -/

@[simp] theorem statPath_nil (t : Node) : statPath t [] = .ok t := by
  cases t <;> rfl

theorem statPath_dir_cons (es : Entries) (a : String) (q : List String) :
    statPath (.dir es) (a :: q) =
      (match findEntry es a with
       | none => .error .enoent
       | some t => statPath t q) := rfl

theorem fileAt_dir_cons (es : Entries) (a : String) (q : List String) :
    fileAt (.dir es) (a :: q) =
      (match findEntry es a with
       | none => none
       | some t => fileAt t q) := by
  cases hf : findEntry es a <;> simp [fileAt, statPath_dir_cons, hf]

theorem isdirB_dir_cons (es : Entries) (a : String) (q : List String) :
    isdirB (.dir es) (a :: q) =
      (match findEntry es a with
       | none => false
       | some t => isdirB t q) := by
  cases hf : findEntry es a <;> simp [isdirB, statPath_dir_cons, hf]

@[simp] theorem fileAt_file_nil (c : Bytes) : fileAt (.file c) [] = some c := rfl

@[simp] theorem fileAt_dir_nil (es : Entries) : fileAt (.dir es) [] = none := rfl

@[simp] theorem fileAt_file_cons (c : Bytes) (a : String) (q : List String) :
    fileAt (.file c) (a :: q) = none := rfl

@[simp] theorem isdirB_file (c : Bytes) (p : List String) :
    isdirB (.file c) p = false := by
  cases p <;> rfl

@[simp] theorem isdirB_dir_nil (es : Entries) : isdirB (.dir es) [] = true := rfl

theorem pexists_of_fileAt (fs : Node) (p : List String) (c : Bytes)
    (h : fileAt fs p = some c) : pexists fs p = true := by
  unfold fileAt at h
  unfold pexists
  cases hs : statPath fs p with
  | error e => rw [hs] at h; simp at h
  | ok t => rfl

theorem statPath_of_fileAt (fs : Node) (p : List String) (c : Bytes)
    (h : fileAt fs p = some c) : statPath fs p = .ok (.file c) := by
  unfold fileAt at h
  cases hs : statPath fs p with
  | error e => rw [hs] at h; simp at h
  | ok t =>
    rw [hs] at h
    cases t with
    | file c' => simp at h; rw [h]
    | dir es => simp at h

/-! ## Lemmas about the mutating primitives -/

theorem fopen_w_fileAt : ∀ (fs : Node) (ps : List String) (fs' : Node),
    fopen fs ps .w = .ok fs' → fileAt fs' ps = some []
  | .file _, [], _, h => by simp [fopen] at h
  | .file _, _ :: _, _, h => by simp [fopen] at h
  | .dir _, [], _, h => by simp [fopen] at h
  | .dir es, [leaf], fs', h => by
    cases hf : findEntry es leaf with
    | none =>
      simp [fopen, hf] at h
      rw [← h, fileAt_dir_cons, findEntry_setEntry_self]
      rfl
    | some t =>
      cases t with
      | dir es2 => simp [fopen, hf] at h
      | file c =>
        simp [fopen, hf] at h
        rw [← h, fileAt_dir_cons, findEntry_setEntry_self]
        rfl
  | .dir es, a :: b :: rest, fs', h => by
    cases hf : findEntry es a with
    | none => simp [fopen, hf] at h
    | some t =>
      cases hrec : fopen t (b :: rest) .w with
      | error e => simp [fopen, hf, hrec] at h
      | ok t' =>
        simp [fopen, hf, hrec] at h
        rw [← h, fileAt_dir_cons, findEntry_setEntry_self]
        exact fopen_w_fileAt t (b :: rest) t' hrec

theorem fopen_keep (m : Mode) (hm : m = .r ∨ m = .rPlus ∨ m = .a) :
    ∀ (fs : Node) (ps : List String) (c : Bytes), ps ≠ [] →
      fileAt fs ps = some c → fopen fs ps m = .ok fs
  | .file c0, [], c, hne, h => absurd rfl hne
  | .file _, _ :: _, c, _, h => by simp at h
  | .dir _, [], c, hne, h => absurd rfl hne
  | .dir es, [leaf], c, _, h => by
    rw [fileAt_dir_cons] at h
    cases hf : findEntry es leaf with
    | none => rw [hf] at h; simp at h
    | some t =>
      rw [hf] at h
      cases t with
      | dir es2 => simp [fileAt] at h
      | file c0 =>
        rcases hm with hm | hm | hm <;> subst hm <;> simp [fopen, hf]
  | .dir es, a :: b :: rest, c, _, h => by
    rw [fileAt_dir_cons] at h
    cases hf : findEntry es a with
    | none => rw [hf] at h; simp at h
    | some t =>
      rw [hf] at h
      have ih := fopen_keep m hm t (b :: rest) c (by simp) h
      simp [fopen, hf, ih, setEntry_self es a t hf]

theorem writeBack_fileAt : ∀ (fs : Node) (ps : List String) (f : Bytes → Bytes)
    (c : Bytes), ps ≠ [] → fileAt fs ps = some c →
      fileAt (writeBack fs ps f) ps = some (f c)
  | .file _, [], f, c, hne, h => absurd rfl hne
  | .file _, _ :: _, f, c, _, h => by simp at h
  | .dir _, [], f, c, hne, h => absurd rfl hne
  | .dir es, [leaf], f, c, _, h => by
    rw [fileAt_dir_cons] at h
    cases hf : findEntry es leaf with
    | none => rw [hf] at h; simp at h
    | some t =>
      rw [hf] at h
      cases t with
      | dir es2 => simp [fileAt] at h
      | file c0 =>
        simp at h
        subst h
        rw [writeBack, hf]
        rw [fileAt_dir_cons, findEntry_setEntry_self]
        rfl
  | .dir es, a :: b :: rest, f, c, _, h => by
    rw [fileAt_dir_cons] at h
    cases hf : findEntry es a with
    | none => rw [hf] at h; simp at h
    | some t =>
      rw [hf] at h
      have ih := writeBack_fileAt t (b :: rest) f c (by simp) h
      rw [writeBack, hf]
      rw [fileAt_dir_cons, findEntry_setEntry_self]
      exact ih

end Store
namespace Store

theorem nodeWF_dir (es : Entries) :
    nodeWF (.dir es) = true ↔ (entryNames es).Nodup ∧ entriesWF es = true := by
  simp [nodeWF]

/-- `os.remove` touches nothing but the removed file: the content of every
other path is untouched. -/
theorem removeFile_fileAt_ne : ∀ (fs : Node) (ps : List String) (fs' : Node),
    nodeWF fs = true → removeFile fs ps = .ok fs' →
      ∀ q, q ≠ ps → fileAt fs' q = fileAt fs q
  | _, [], _, _, h => by simp [removeFile] at h
  | .file _, _ :: _, _, _, h => by simp [removeFile] at h
  | .dir es, [leaf], fs', hwf, h => by
    cases hf : findEntry es leaf with
    | none => simp [removeFile, hf] at h
    | some t =>
      cases t with
      | dir es2 => simp [removeFile, hf] at h
      | file c0 =>
        simp [removeFile, hf] at h
        subst h
        intro q hq
        match q with
        | [] => rfl
        | x :: q' =>
          by_cases hx : x = leaf
          · subst hx
            have hnd := ((nodeWF_dir es).mp hwf).1
            rw [fileAt_dir_cons, findEntry_delEntry_self es x hnd,
              fileAt_dir_cons, hf]
            match q' with
            | [] => exact absurd rfl hq
            | _ :: _ => rfl
          · rw [fileAt_dir_cons, findEntry_delEntry_ne es leaf x hx,
              fileAt_dir_cons]
  | .dir es, a :: b :: rest, fs', hwf, h => by
    cases hf : findEntry es a with
    | none => simp [removeFile, hf] at h
    | some t =>
      cases hrec : removeFile t (b :: rest) with
      | error e => simp [removeFile, hf, hrec] at h
      | ok t' =>
        simp [removeFile, hf, hrec] at h
        subst h
        intro q hq
        have hwt : nodeWF t = true :=
          nodeWF_of_findEntry es a t ((nodeWF_dir es).mp hwf).2 hf
        match q with
        | [] => rfl
        | x :: q' =>
          by_cases hx : x = a
          · subst hx
            rw [fileAt_dir_cons, findEntry_setEntry_self, fileAt_dir_cons, hf]
            exact removeFile_fileAt_ne t (b :: rest) t' hwt hrec q'
              (fun hc => hq (by rw [hc]))
          · rw [fileAt_dir_cons, findEntry_setEntry_ne es a x t' hx,
              fileAt_dir_cons]

/-- `os.remove` removes a plain file, so every directory that existed
before still exists (and none appears): the directory predicate is
untouched at every path. -/
theorem removeFile_isdir : ∀ (fs : Node) (ps : List String) (fs' : Node),
    nodeWF fs = true → removeFile fs ps = .ok fs' →
      ∀ q, isdirB fs' q = isdirB fs q
  | _, [], _, _, h => by simp [removeFile] at h
  | .file _, _ :: _, _, _, h => by simp [removeFile] at h
  | .dir es, [leaf], fs', hwf, h => by
    cases hf : findEntry es leaf with
    | none => simp [removeFile, hf] at h
    | some t =>
      cases t with
      | dir es2 => simp [removeFile, hf] at h
      | file c0 =>
        simp [removeFile, hf] at h
        subst h
        intro q
        match q with
        | [] => rfl
        | x :: q' =>
          by_cases hx : x = leaf
          · subst hx
            have hnd := ((nodeWF_dir es).mp hwf).1
            rw [isdirB_dir_cons, findEntry_delEntry_self es x hnd,
              isdirB_dir_cons, hf]
            simp
          · rw [isdirB_dir_cons, findEntry_delEntry_ne es leaf x hx,
              isdirB_dir_cons]
  | .dir es, a :: b :: rest, fs', hwf, h => by
    cases hf : findEntry es a with
    | none => simp [removeFile, hf] at h
    | some t =>
      cases hrec : removeFile t (b :: rest) with
      | error e => simp [removeFile, hf, hrec] at h
      | ok t' =>
        simp [removeFile, hf, hrec] at h
        subst h
        intro q
        have hwt : nodeWF t = true :=
          nodeWF_of_findEntry es a t ((nodeWF_dir es).mp hwf).2 hf
        match q with
        | [] => rfl
        | x :: q' =>
          by_cases hx : x = a
          · subst hx
            rw [isdirB_dir_cons, findEntry_setEntry_self, isdirB_dir_cons, hf]
            exact removeFile_isdir t (b :: rest) t' hwt hrec q'
          · rw [isdirB_dir_cons, findEntry_setEntry_ne es a x t' hx,
              isdirB_dir_cons]

end Store
namespace Store

/-! ## Codec lemmas -/

theorem parseLen_encLen : ∀ (n : Nat) (rest : Bytes),
    parseLen (encLen n ++ rest) = some (n, rest)
  | 0, rest => by simp [encLen, parseLen]
  | n + 1, rest => by
    have hshape : encLen (n + 1) ++ rest = 1 :: (encLen n ++ rest) := by
      simp [encLen, List.replicate_succ]
    rw [hshape, parseLen, parseLen_encLen n rest]

theorem takeN_self : ∀ (v rest : Bytes), takeN v.length (v ++ rest) = some (v, rest)
  | [], rest => by simp [takeN]
  | c :: v, rest => by simp [takeN, takeN_self v rest]

theorem gzipMember_length (v : Bytes) :
    (gzipMember v).length = v.length + v.length + 3 := by
  simp [gzipMember, encLen]
  omega

theorem decodeAux_memberChain : ∀ (ms : List (List Nat)) (f : Nat),
    ((ms.map gzipMember).flatten).length ≤ f →
      decodeAux f ((ms.map gzipMember).flatten) = some ms.flatten
  | [], f, _ => by simp [decodeAux]
  | v :: ms, f, hf => by
    have hshape : (((v :: ms).map gzipMember).flatten) =
        31 :: 139 :: (encLen v.length ++ (v ++ ((ms.map gzipMember).flatten))) := by
      simp [gzipMember]
    have hlen : (((v :: ms).map gzipMember).flatten).length =
        (gzipMember v).length + ((ms.map gzipMember).flatten).length := by
      simp
    cases f with
    | zero =>
      exfalso
      rw [hlen, gzipMember_length] at hf
      omega
    | succ f' =>
      have hrec : ((ms.map gzipMember).flatten).length ≤ f' := by
        rw [hlen, gzipMember_length] at hf
        omega
      rw [hshape, decodeAux, parseLen_encLen]
      simp only [takeN_self, decodeAux_memberChain ms f' hrec]
      simp

theorem decodeMembers_chain (ms : List (List Nat)) :
    decodeMembers ((ms.map gzipMember).flatten) = some ms.flatten :=
  decodeAux_memberChain ms _ le_rfl

theorem decodeMembers_single (v : Bytes) :
    decodeMembers (gzipMember v) = some v := by
  have h := decodeMembers_chain [v]
  simpa using h

theorem decodeMembers_pair (a b : Bytes) :
    decodeMembers (gzipMember a ++ gzipMember b) = some (a ++ b) := by
  have h := decodeMembers_chain [a, b]
  simpa using h

/-- One committed session reads back as its payload, with either codec. -/
theorem readC_encC (c : Bool) (v : Bytes) : readC c (encC c v) = some v := by
  cases c <;> simp [readC, encC, decodeMembers_single]

/-- Two committed sessions read back as the concatenated payloads, with
either codec. -/
theorem readC_encC_append (c : Bool) (a b : Bytes) :
    readC c (encC c a ++ encC c b) = some (a ++ b) := by
  cases c <;> simp [readC, encC, decodeMembers_pair]

end Store
namespace Store

/-! ## Operation-level lemmas -/

@[simp] theorem eraseFirst_cons_self (l : List (List String)) (p : List String) :
    eraseFirst (p :: l) p = l := by simp [eraseFirst]

theorem fopen_ok_ne_nil (fs : Node) (ps : List String) (m : Mode) (fs' : Node)
    (h : fopen fs ps m = .ok fs') : ps ≠ [] := by
  intro he
  subst he
  cases fs <;> simp [fopen] at h

/-- Success shape of a write-capable `open`: the key resolved, its lock was
free and is now held, and the opened handle is fresh. -/
theorem openOp_ok (db : DB) (key : String) (m : Mode) (c : Bool) (sys : Sys)
    (h : Handle) (sys1 : Sys) (hm : m ≠ .r)
    (hop : openOp db key m c sys = (.ok h, sys1)) :
    ∃ fn fs1, get_fullname db.loc key = .ok fn ∧
      h = ⟨segsOf fn, m, c, []⟩ ∧
      makedirsM sys.fs (segsOf fn) = .ok fs1 ∧
      fopen fs1 (segsOf fn) m = .ok sys1.fs ∧
      segsOf fn ∉ sys.locks ∧
      sys1.locks = segsOf fn :: sys.locks := by
  unfold openOp at hop
  cases hfn : get_fullname db.loc key with
  | error e => rw [hfn] at hop; simp at hop
  | ok fn =>
    rw [hfn] at hop
    dsimp only at hop
    simp only [if_neg hm] at hop
    cases hmk : makedirsM sys.fs (segsOf fn) with
    | error e => rw [hmk] at hop; simp at hop
    | ok fs1 =>
      rw [hmk] at hop
      dsimp only at hop
      cases hfo : fopen fs1 (segsOf fn) m with
      | error e => rw [hfo] at hop; simp at hop
      | ok fs2 =>
        rw [hfo] at hop
        dsimp only at hop
        cases hlk : lockInOpen { sys with fs := fs2 } (segsOf fn) with
        | error e => rw [hlk] at hop; simp at hop
        | ok sys3 =>
          rw [hlk] at hop
          dsimp only at hop
          simp at hop
          unfold lockInOpen lockOp lockf lockTranslate at hlk
          by_cases hmem : segsOf fn ∈ sys.locks
          · simp [hmem] at hlk
          · simp [hmem] at hlk
            refine ⟨fn, fs1, rfl, hop.1.symm, hmk, ?_, hmem, ?_⟩
            · rw [← hop.2, ← hlk]
              exact hfo
            · rw [← hop.2, ← hlk]

/-- `makedirs` wrapper is a no-op when the full path already exists. -/
theorem makedirsM_of_pexists (fs : Node) (ps : List String)
    (h : pexists fs ps = true) : makedirsM fs ps = .ok fs := by
  unfold makedirsM
  rw [h]
  rfl

/-- Forward computation of a read-write or append `open` on an existing,
unlocked key: it succeeds, changes no file, and takes the lock. -/
theorem openOp_existing (db : DB) (key : String) (m : Mode) (c : Bool)
    (sys : Sys) (fn : String) (cur : Bytes)
    (hm : m = .rPlus ∨ m = .a)
    (hfn : get_fullname db.loc key = .ok fn)
    (hne : segsOf fn ≠ [])
    (hfile : fileAt sys.fs (segsOf fn) = some cur)
    (hnl : segsOf fn ∉ sys.locks) :
    openOp db key m c sys =
      (.ok ⟨segsOf fn, m, c, []⟩, { sys with locks := segsOf fn :: sys.locks }) := by
  have hmr : m ≠ .r := by rcases hm with hm | hm <;> subst hm <;> simp
  have hkeep : fopen sys.fs (segsOf fn) m = .ok sys.fs :=
    fopen_keep m (by rcases hm with hm | hm <;> simp [hm]) sys.fs (segsOf fn) cur hne hfile
  unfold openOp
  rw [hfn]
  dsimp only
  simp only [if_neg hmr]
  rw [makedirsM_of_pexists sys.fs (segsOf fn) (pexists_of_fileAt _ _ _ hfile)]
  dsimp only
  rw [hkeep]
  dsimp only
  unfold lockInOpen lockOp lockf lockTranslate
  simp [hnl]

/-- Success shape of `put`: the key resolves, its lock was free and is free
again, and the file now holds exactly one committed session. -/
theorem put_ok_shape (db : DB) (key : String) (v : Bytes) (c : Bool) (sys : Sys)
    (hp : (put db key v c sys).1 = .ok ()) :
    ∃ fn, get_fullname db.loc key = .ok fn ∧ segsOf fn ≠ [] ∧
      segsOf fn ∉ sys.locks ∧
      (put db key v c sys).2.locks = sys.locks ∧
      fileAt (put db key v c sys).2.fs (segsOf fn) = some (encC c v) := by
  unfold put at hp ⊢
  cases hop : openOp db key .w c sys with
  | mk r sys1 =>
    cases r with
    | error e => rw [hop] at hp; simp at hp
    | ok h =>
      rw [hop] at hp
      obtain ⟨fn, fs1, hfn, hh, hmk, hfo, hnl, hlk⟩ :=
        openOp_ok db key .w c sys h sys1 (by simp) hop
      have hne := fopen_ok_ne_nil fs1 (segsOf fn) .w sys1.fs hfo
      have hfile : fileAt sys1.fs (segsOf fn) = some [] :=
        fopen_w_fileAt fs1 (segsOf fn) sys1.fs hfo
      dsimp only at hp ⊢
      refine ⟨fn, hfn, hne, hnl, ?_, ?_⟩
      · simp [hclose, hh, hlk, hwrite]
      · simp only [hclose, hh, hwrite]
        simp only [writesOnClose]
        have := writeBack_fileAt sys1.fs (segsOf fn)
          (fun old => old ++ encC c ([] ++ v)) [] hne hfile
        simpa using this

end Store
namespace Store

/-- Forward computation of `get` on an existing, unlocked key: the lock is
taken and released again, the state is unchanged, and the decoded content
comes back. -/
theorem getOp_existing (db : DB) (key : String) (c : Bool) (sys : Sys)
    (fn : String) (cur v : Bytes)
    (hfn : get_fullname db.loc key = .ok fn)
    (hne : segsOf fn ≠ [])
    (hfile : fileAt sys.fs (segsOf fn) = some cur)
    (hnl : segsOf fn ∉ sys.locks)
    (hrd : readC c cur = some v) :
    getOp db key c sys = (.ok v, sys) := by
  unfold getOp
  rw [openOp_existing db key .rPlus c sys fn cur (Or.inl rfl) hfn hne hfile hnl]
  dsimp only
  unfold hread
  dsimp only
  rw [hfile]
  dsimp only
  rw [hrd]
  dsimp only
  unfold hclose
  simp [writesOnClose]

/-- Forward computation of `append` on an existing, unlocked key: one more
session is committed after the current content. -/
theorem appendOp_existing (db : DB) (key : String) (b : Bytes) (c : Bool)
    (sys : Sys) (fn : String) (cur : Bytes)
    (hfn : get_fullname db.loc key = .ok fn)
    (hne : segsOf fn ≠ [])
    (hfile : fileAt sys.fs (segsOf fn) = some cur)
    (hnl : segsOf fn ∉ sys.locks) :
    appendOp db key b c sys =
      (.ok (), { fs := writeBack sys.fs (segsOf fn) (fun old => old ++ encC c b),
                 locks := sys.locks }) := by
  unfold appendOp
  rw [openOp_existing db key .a c sys fn cur (Or.inr rfl) hfn hne hfile hnl]
  dsimp only
  unfold hclose hwrite
  simp [writesOnClose]

end Store
namespace Store

/-- C2: for every valid key `k` and byte value `v`, and for each setting of
the compress flag used consistently in both calls, `put(k, v, compress)`
followed by `get(k, compress)` returns exactly `v`.  The hypothesis is that
the `put` succeeded (the key is valid and resolvable and its lock free),
which is exactly when the round trip is defined. -/
theorem put_get_roundtrip (db : DB) (key : String) (v : Bytes) (c : Bool)
    (sys : Sys) (hp : (put db key v c sys).1 = .ok ()) :
    (getOp db key c (put db key v c sys).2).1 = .ok v := by
  obtain ⟨fn, hfn, hne, hnl, hlocks, hfile⟩ := put_ok_shape db key v c sys hp
  rw [getOp_existing db key c (put db key v c sys).2 fn (encC c v) v hfn hne
    hfile (by rw [hlocks]; exact hnl) (readC_encC c v)]

/-- C3: for every valid key `k` and arbitrary byte sequences `a` and `b`,
`put(k, a)` followed by `append(k, b)` followed by `get(k)` returns the
concatenation `a ++ b`, for each consistent setting of the compress flag.
When the `put` succeeds, the `append` is proved to succeed as well. -/
theorem put_append_get (db : DB) (key : String) (a b : Bytes) (c : Bool)
    (sys : Sys) (hp : (put db key a c sys).1 = .ok ()) :
    (appendOp db key b c (put db key a c sys).2).1 = .ok () ∧
    (getOp db key c (appendOp db key b c (put db key a c sys).2).2).1 =
      .ok (a ++ b) := by
  obtain ⟨fn, hfn, hne, hnl, hlocks, hfile⟩ := put_ok_shape db key a c sys hp
  have hnl1 : segsOf fn ∉ (put db key a c sys).2.locks := by
    rw [hlocks]; exact hnl
  have happ := appendOp_existing db key b c (put db key a c sys).2 fn
    (encC c a) hfn hne hfile hnl1
  refine ⟨by rw [happ], ?_⟩
  have hfile2 : fileAt (appendOp db key b c (put db key a c sys).2).2.fs
      (segsOf fn) = some (encC c a ++ encC c b) := by
    rw [happ]
    exact writeBack_fileAt (put db key a c sys).2.fs (segsOf fn)
      (fun old => old ++ encC c b) (encC c a) hne hfile
  have hnl2 : segsOf fn ∉ (appendOp db key b c (put db key a c sys).2).2.locks := by
    rw [happ]
    exact hnl1
  rw [getOp_existing db key c _ fn (encC c a ++ encC c b) (a ++ b) hfn hne
    hfile2 hnl2 (readC_encC_append c a b)]

end Store
namespace Store

/-- A tiny concrete store for witnesses: an empty store directory `/s`. -/
def sysEmpty : Sys := ⟨.dir (.cons "s" (.dir .nil) .nil), []⟩

/-- The database object over `/s`. -/
def dbS : DB := ⟨"/s"⟩

/-- Witness for C2 at a concrete input: an uncompressed `put` of bytes
`[7, 8]` under key `k/x` succeeds, and the `get` that follows returns
them. -/
theorem put_get_roundtrip_witness :
    (put dbS "k/x" [7, 8] false sysEmpty).1 = .ok () ∧
    (getOp dbS "k/x" false (put dbS "k/x" [7, 8] false sysEmpty).2).1 =
      .ok [7, 8] :=
  ⟨by rfl, put_get_roundtrip dbS "k/x" [7, 8] false sysEmpty (by rfl)⟩

/-- Witness for C3 at a concrete input exercising the compressed codec:
`put` of `[1]`, `append` of `[2, 3]`, then `get` returns `[1, 2, 3]`. -/
theorem put_append_get_witness :
    (put dbS "k/x" [1] true sysEmpty).1 = .ok () ∧
    (appendOp dbS "k/x" [2, 3] true (put dbS "k/x" [1] true sysEmpty).2).1 =
      .ok () ∧
    (getOp dbS "k/x" true
      (appendOp dbS "k/x" [2, 3] true (put dbS "k/x" [1] true sysEmpty).2).2).1 =
      .ok [1, 2, 3] :=
  ⟨by rfl, (put_append_get dbS "k/x" [1] [2, 3] true sysEmpty (by rfl)).1,
    (put_append_get dbS "k/x" [1] [2, 3] true sysEmpty (by rfl)).2⟩

end Store
namespace Store

/-- C6: `_lock` on an open handle fails with `Locked` exactly when another
holder currently holds the lock (the non-blocking attempt reports
`EACCES`/`EAGAIN` exactly for contention); when free, the lock is acquired;
and an `IOError` with any other errno is re-raised unchanged, neither
translated to `Locked` nor wrapped. -/
theorem lock_contention (sys : Sys) (p : List String) (e : Errno)
    (h1 : e ≠ .eacces) (h2 : e ≠ .eagain) :
    (lockOp sys p = .error .locked ↔ p ∈ sys.locks) ∧
    (p ∉ sys.locks → lockOp sys p = .ok { sys with locks := p :: sys.locks }) ∧
    lockTranslate (.error e) = .error (.ioError e) := by
  unfold lockOp lockf lockTranslate
  by_cases hm : p ∈ sys.locks <;> simp [hm, h1, h2]

/-- Witness for C6: contention on a held path reports `Locked`, a free
path is acquired, and `EBADF` passes through untranslated. -/
theorem lock_contention_witness :
    (lockOp ⟨.dir .nil, [["a"]]⟩ ["a"] = .error .locked ↔
      ["a"] ∈ (⟨.dir .nil, [["a"]]⟩ : Sys).locks) ∧
    (["a"] ∉ (⟨.dir .nil, [["a"]]⟩ : Sys).locks →
      lockOp ⟨.dir .nil, [["a"]]⟩ ["a"] = .ok ⟨.dir .nil, ["a"] :: [["a"]]⟩) ∧
    lockTranslate (.error .ebadf) = .error (.ioError .ebadf) :=
  lock_contention ⟨.dir .nil, [["a"]]⟩ ["a"] .ebadf (by decide) (by decide)

/-- A store whose root `/s` holds a container `a` and a plain file `f`. -/
def sysMixed : Sys :=
  ⟨.dir (.cons "s" (.dir (.cons "a" (.dir .nil) (.cons "f" (.file [5]) .nil))) .nil), []⟩

/-- Counterexample to C5 as stated: at a path where a container exists,
`getsize` does not fail with `NotAKey` — `os.path.getsize` is stat-based
and stat succeeds on a directory, so it returns the directory's stat
size. -/
theorem getsize_container_counterexample :
    is_container dbS "a" sysMixed = .ok true ∧
    getsizeOp dbS "a" sysMixed = .ok 0 ∧
    getsizeOp dbS "a" sysMixed ≠ .error .notAKey := by
  refine ⟨by rfl, by rfl, fun h => ?_⟩
  rw [show getsizeOp dbS "a" sysMixed = .ok 0 from by rfl] at h
  exact Except.noConfusion h

/-- C5 amended: `getsize`/`getmtime` are stat-derived.  On any existing
path — a container included — they succeed (`getsize` returning the stat
size, which for a directory is the platform value, modelled 0); on an
absent path they fail with `DoesNotExist`; with a plain file along the
path they fail with `NotAContainer`. -/
theorem stat_errors (db : DB) (p fn : String) (sys : Sys)
    (hfn : get_fullname db.loc p = .ok fn) :
    (∀ t, statPath sys.fs (segsOf fn) = .ok t →
      getsizeOp db p sys = .ok (statSize t) ∧ getmtimeOp db p sys = .ok 0) ∧
    (statPath sys.fs (segsOf fn) = .error .enoent →
      getsizeOp db p sys = .error .doesNotExist ∧
      getmtimeOp db p sys = .error .doesNotExist) ∧
    (statPath sys.fs (segsOf fn) = .error .enotdir →
      getsizeOp db p sys = .error .notAContainer ∧
      getmtimeOp db p sys = .error .notAContainer) := by
  unfold getsizeOp getmtimeOp
  rw [hfn]
  dsimp only
  refine ⟨fun t ht => ?_, fun ht => ?_, fun ht => ?_⟩ <;> rw [ht] <;> exact ⟨rfl, rfl⟩

/-- Witness for C5 (amended) on `sysMixed`: the container succeeds, the
absent key fails `DoesNotExist`, the path through the plain file `f` fails
`NotAContainer`. -/
theorem stat_errors_witness :
    (getsizeOp dbS "a" sysMixed = .ok 0 ∧ getmtimeOp dbS "a" sysMixed = .ok 0) ∧
    (getsizeOp dbS "nope" sysMixed = .error .doesNotExist ∧
      getmtimeOp dbS "nope" sysMixed = .error .doesNotExist) ∧
    (getsizeOp dbS "f/x" sysMixed = .error .notAContainer ∧
      getmtimeOp dbS "f/x" sysMixed = .error .notAContainer) :=
  ⟨(stat_errors dbS "a" "/s/a" sysMixed (by rfl)).1 (.dir .nil) (by rfl),
   (stat_errors dbS "nope" "/s/nope" sysMixed (by rfl)).2.1 (by rfl),
   (stat_errors dbS "f/x" "/s/f/x" sysMixed (by rfl)).2.2 (by rfl)⟩

/-- Modelled from the spec: sandbox containment — the glossary's "the
invariant that every resolved key path remains a descendant of the store
root", as a path-aware prefix test (the path equals the root or extends it
past a separator). -/
def isDescendantB (root p : String) : Bool :=
  p == root || (root ++ "/").data.isPrefixOf p.data

/-- C1 fails on the code: with store root `/s`, the key `../sx` contains a
`..` segment and resolves to `/sx`, outside the root — yet `_within_base`
accepts it, because `os.path.commonprefix` is a character-wise prefix test
and `/s` is a character prefix of `/sx`.  `put` on that key then succeeds
and writes `/sx`, a filesystem mutation entirely outside the store (the
root's subtree is untouched). -/
theorem sandbox_escape :
    get_fullname "/s" "../sx" = .ok "/sx" ∧
    isDescendantB "/s" "/sx" = false ∧
    (put dbS "../sx" [1] false sysEmpty).1 = .ok () ∧
    fileAt sysEmpty.fs ["sx"] = none ∧
    fileAt (put dbS "../sx" [1] false sysEmpty).2.fs ["sx"] = some [1] ∧
    statPath (put dbS "../sx" [1] false sysEmpty).2.fs ["s"] =
      statPath sysEmpty.fs ["s"] :=
  ⟨by rfl, by rfl, by rfl, by rfl, by rfl, by rfl⟩

/-- C9: a successful `delete` removes only the single backing file of the
key: every other path keeps its file content, every directory that existed
before — the deleted key's parents included — still exists (the directory
predicate is untouched at every path), and no lock changes. -/
theorem delete_frame (db : DB) (key fn : String) (sys : Sys)
    (hwf : nodeWF sys.fs = true)
    (hfn : get_fullname db.loc key = .ok fn)
    (hdel : (delete db key sys).1 = .ok ()) :
    (∀ q, q ≠ segsOf fn → fileAt (delete db key sys).2.fs q = fileAt sys.fs q) ∧
    (∀ q, isdirB (delete db key sys).2.fs q = isdirB sys.fs q) ∧
    (delete db key sys).2.locks = sys.locks := by
  unfold delete at hdel ⊢
  rw [hfn] at hdel ⊢
  dsimp only at hdel ⊢
  cases hrm : removeFile sys.fs (segsOf fn) with
  | error e =>
    rw [hrm] at hdel
    exact Except.noConfusion hdel
  | ok fs' =>
    dsimp only
    exact ⟨removeFile_fileAt_ne sys.fs (segsOf fn) fs' hwf hrm,
      removeFile_isdir sys.fs (segsOf fn) fs' hwf hrm, rfl⟩

/-- A store with keys `a/x`, `a/y`, `b/x` (also used for find). -/
def sysFind : Sys :=
  ⟨.dir (.cons "s"
    (.dir (.cons "a" (.dir (.cons "x" (.file []) (.cons "y" (.file []) .nil)))
      (.cons "b" (.dir (.cons "x" (.file []) .nil)) .nil))) .nil), []⟩

/-- Witness for C9: deleting `a/x` from the three-key store leaves `a/y`
and `b/x` intact and every directory (the emptied `a` included) in
place. -/
theorem delete_frame_witness :
    ((delete dbS "a/x" sysFind).1 = .ok ()) ∧
    fileAt (delete dbS "a/x" sysFind).2.fs ["s", "a", "y"] = some [] ∧
    fileAt (delete dbS "a/x" sysFind).2.fs ["s", "b", "x"] = some [] ∧
    isdirB (delete dbS "a/x" sysFind).2.fs ["s", "a"] = true :=
  have h := delete_frame dbS "a/x" "/s/a/x" sysFind (by rfl) (by rfl) (by rfl)
  ⟨by rfl,
    by rw [h.1 ["s", "a", "y"] (by decide)]; rfl,
    by rw [h.1 ["s", "b", "x"] (by decide)]; rfl,
    by rw [h.2.1 ["s", "a"]]; rfl⟩

end Store
namespace Store

/-- Counterexample to C4 as stated: a failing `open` is not atomic.
Opening the absent key `p/q` in read-write mode fails with `DoesNotExist`,
but `open` runs `_makedirs` before the `file()` call for every non-read
mode, so the parent directory `p` has been created and stays behind. -/
theorem open_failure_mutates :
    (openOp dbS "p/q" .rPlus false sysEmpty).1 = .error .doesNotExist ∧
    isdirB sysEmpty.fs ["s", "p"] = false ∧
    isdirB (openOp dbS "p/q" .rPlus false sysEmpty).2.fs ["s", "p"] = true :=
  ⟨by rfl, by rfl, by rfl⟩

/-- C4 amended: among the store's operations, the stateful ones other than
`rename`, `create` and the non-read-mode `open` path (which `put`, `append`
and `get` all go through) are atomic on failure: whenever `open` in pure
read mode, `delete`, `drop` or `create_container` fails, the returned state
is exactly the input state.  (`exists`, `is_key`, `is_container`,
`getmtime`, `getsize` and `find` are embedded as pure functions of the
state: they never mutate anything.) -/
theorem atomic_failure_ops (db : DB) (sys : Sys) (p : String) (c : Bool) :
    (∀ e, (openOp db p .r c sys).1 = .error e → (openOp db p .r c sys).2 = sys) ∧
    (∀ e, (delete db p sys).1 = .error e → (delete db p sys).2 = sys) ∧
    (∀ e, (dropOp db p sys).1 = .error e → (dropOp db p sys).2 = sys) ∧
    (∀ e, (create_container db p sys).1 = .error e →
      (create_container db p sys).2 = sys) := by
  refine ⟨fun e => ?_, fun e => ?_, fun e => ?_, fun e => ?_⟩
  · unfold openOp
    cases hfn : get_fullname db.loc p with
    | error e2 => intro _; rfl
    | ok fn =>
      dsimp only
      simp only [reduceIte]
      cases hfo : fopen sys.fs (segsOf fn) .r with
      | error e2 => intro _; rfl
      | ok fs2 => intro he; exact Except.noConfusion he
  · unfold delete
    cases hfn : get_fullname db.loc p with
    | error e2 => intro _; rfl
    | ok fn =>
      dsimp only
      cases hrm : removeFile sys.fs (segsOf fn) with
      | error e2 => intro _; rfl
      | ok fs' => intro he; exact Except.noConfusion he
  · unfold dropOp
    cases hfn : get_fullname db.loc p with
    | error e2 => intro _; rfl
    | ok fn =>
      dsimp only
      cases hrm : rmtree sys.fs (segsOf fn) with
      | error e2 => intro _; rfl
      | ok fs' => intro he; exact Except.noConfusion he
  · unfold create_container
    cases hex : existsOp db p sys with
    | error e2 => intro _; rfl
    | ok b =>
      cases b with
      | true => intro _; rfl
      | false =>
        dsimp only
        cases hfn : get_fullname db.loc p with
        | error e2 => intro _; rfl
        | ok fn =>
          dsimp only
          cases hmk : makedirs sys.fs (segsOf fn) with
          | error e2 => intro _; rfl
          | ok fs' => intro he; exact Except.noConfusion he

/-- Witness for C4 (amended) at concrete failing calls: a read-mode open
of an absent key, a delete and a drop of absent paths, and
`create_container` over something that already exists, each leave the
state untouched. -/
theorem atomic_failure_ops_witness :
    (openOp dbS "nope" .r false sysEmpty).2 = sysEmpty ∧
    (delete dbS "nope" sysEmpty).2 = sysEmpty ∧
    (dropOp dbS "nope" sysEmpty).2 = sysEmpty ∧
    (create_container dbS "a" sysMixed).2 = sysMixed :=
  ⟨(atomic_failure_ops dbS sysEmpty "nope" false).1 .doesNotExist (by rfl),
   (atomic_failure_ops dbS sysEmpty "nope" false).2.1 .doesNotExist (by rfl),
   (atomic_failure_ops dbS sysEmpty "nope" false).2.2.1 .doesNotExist (by rfl),
   (atomic_failure_ops dbS sysMixed "a" false).2.2.2 .genericError (by rfl)⟩

end Store
namespace Store

/-- C7: over the store holding exactly the keys `a/x`, `a/y`, `b/x`,
`find` with pattern `x$` matching only the final path segment yields
exactly `a/x` and `b/x`, and `find` with pattern `^a/` matching the full
key yields exactly `a/x` and `a/y` (here in the walk order of the listing;
list equality subsumes the claimed set equality). -/
theorem find_traversal :
    findOp dbS "x$" none false sysFind = .ok ["a/x", "b/x"] ∧
    findOp dbS "^a/" none true sysFind = .ok ["a/x", "a/y"] :=
  ⟨by rfl, by rfl⟩

end Store
namespace Store

/-! ## Lemmas for `create` -/

theorem strDrop_length (s : String) (n : Nat) :
    (strDrop s n).length = s.length - n := by
  show (s.data.drop n).length = s.data.length - n
  simp

theorem commonPrefixChars_length_le : ∀ (xs ys : List Char),
    (commonPrefixChars xs ys).length ≤ ys.length
  | [], ys => by simp [commonPrefixChars]
  | x :: xs, [] => by simp [commonPrefixChars]
  | x :: xs, y :: ys => by
    by_cases h : x = y <;>
      simp [commonPrefixChars, h, Nat.succ_le_succ, commonPrefixChars_length_le xs ys]

/-- A path accepted by `_within_base` is at least as long as the
location. -/
theorem within_base_length (loc fn : String) (h : within_base loc fn = true) :
    loc.length ≤ fn.length := by
  unfold within_base at h
  have heq : commonprefixOf loc fn = loc := by
    exact eq_of_beq h
  have hlen := commonPrefixChars_length_le loc.data fn.data
  have : (commonprefixOf loc fn).length = (commonPrefixChars loc.data fn.data).length := rfl
  rw [heq] at this
  show loc.data.length ≤ fn.data.length
  rw [show (loc.length = loc.data.length) from rfl] at this
  omega

theorem make_path_length (loc p fn : String) (h : make_path loc p = .ok fn) :
    loc.length ≤ fn.length := by
  unfold make_path at h
  by_cases hb : within_base loc
      (normpath (pjoin loc (if startsSlash p then strDrop p 1 else p))) = true
  · rw [if_pos hb] at h
    cases h
    exact within_base_length _ _ hb
  · rw [if_neg hb] at h
    exact Except.noConfusion h

theorem get_fullname_length (loc p fn : String)
    (h : get_fullname loc p = .ok fn) : loc.length ≤ fn.length := by
  unfold get_fullname at h
  by_cases he : endsSlash p = true
  · rw [if_pos he] at h
    exact Except.noConfusion h
  · rw [if_neg he] at h
    exact make_path_length loc p fn h

theorem createDst_length (db : DB) (path : Option String) (dst : String)
    (h : createDst db path = .ok dst) : db.loc.length ≤ dst.length := by
  unfold createDst at h
  cases path with
  | none => cases h; exact le_rfl
  | some p =>
    dsimp only at h
    by_cases hp : p = ""
    · rw [if_pos hp] at h
      cases h
      exact le_rfl
    · rw [if_neg hp] at h
      exact get_fullname_length db.loc p dst h

theorem tmpName_not_startsSlash (suf : String) (i : Nat) :
    startsSlash (tmpName "tmp" suf i) = false := by
  unfold tmpName startsSlash
  rw [String.data_append, String.data_append]
  rfl

/-- Length of `os.path.join` for a second argument that is not
root-relative: a fixed offset (depending only on the first argument) plus
the second argument's length. -/
theorem pjoin_length (a b : String) (hb : startsSlash b = false) :
    (pjoin a b).length =
      (if a = "" ∨ endsSlash a = true then a.length else a.length + 1) + b.length := by
  unfold pjoin
  rw [hb]
  simp only [Bool.false_eq_true, if_false]
  by_cases ha : a = "" ∨ endsSlash a = true
  · rw [if_pos ha, String.length_append, if_pos ha]
  · rw [if_neg ha, String.length_append, String.length_append, if_neg ha]
    rfl

theorem statPath_putNode_self : ∀ (fs : Node) (p : List String) (t0 nw : Node),
    statPath fs p = .ok t0 → statPath (putNode fs p nw) p = .ok nw
  | fs, [], t0, nw, _ => by simp [putNode]
  | .file _, a :: q, t0, nw, h => by simp [statPath] at h
  | .dir es, a :: q, t0, nw, h => by
    rw [statPath_dir_cons] at h
    cases hf : findEntry es a with
    | none => rw [hf] at h; exact Except.noConfusion h
    | some t =>
      rw [hf] at h
      cases q with
      | nil =>
        have hput : putNode (.dir es) [a] nw = .dir (setEntry es a nw) := by
          simp [putNode]
        rw [hput, statPath_dir_cons, findEntry_setEntry_self]
        exact statPath_nil nw
      | cons b rest =>
        have hput : putNode (.dir es) (a :: b :: rest) nw =
            .dir (setEntry es a (putNode t (b :: rest) nw)) := by
          simp [putNode, hf]
        rw [hput, statPath_dir_cons, findEntry_setEntry_self]
        exact statPath_putNode_self t (b :: rest) t0 nw h

theorem statPath_append : ∀ (p : List String) (fs : Node) (q : List String),
    statPath fs (p ++ q) = (statPath fs p).bind (fun t => statPath t q)
  | [], fs, q => by cases fs <;> simp [Except.bind]
  | a :: p, .file c, q => by simp [statPath, Except.bind]
  | a :: p, .dir es, q => by
    rw [List.cons_append, statPath_dir_cons, statPath_dir_cons]
    cases hf : findEntry es a with
    | none => simp [Except.bind]
    | some t => exact statPath_append p t q

/-- Reading the file entry `x` of the directory at `ds`. -/
theorem fileAt_append_single (fs : Node) (ds : List String) (es0 : Entries)
    (x : String) (h : statPath fs ds = .ok (.dir es0)) :
    fileAt fs (ds ++ [x]) =
      (match findEntry es0 x with
       | some (.file c) => some c
       | _ => none) := by
  unfold fileAt
  rw [statPath_append ds fs [x], h]
  show (match statPath (.dir es0) [x] with
    | .ok (.file c) => some c
    | _ => none) = _
  rw [statPath_dir_cons]
  cases hf : findEntry es0 x with
  | none => rfl
  | some t => cases t <;> simp

theorem pexists_of_statPath (fs : Node) (p : List String) (t : Node)
    (h : statPath fs p = .ok t) : pexists fs p = true := by
  unfold pexists
  rw [h]

end Store
namespace Store

theorem mkstemp_ok (fs : Node) (ds : List String) (pre suf name : String)
    (fs2 : Node) (h : mkstemp fs ds pre suf = .ok (name, fs2)) :
    ∃ es, statPath fs ds = .ok (.dir es) ∧
      name = tmpName pre suf (maxNameLen es + 1) ∧
      findEntry es name = none ∧
      statPath fs2 ds = .ok (.dir (setEntry es name (.file []))) := by
  unfold mkstemp at h
  cases hst : statPath fs ds with
  | error e => rw [hst] at h; exact Except.noConfusion h
  | ok t =>
    rw [hst] at h
    cases t with
    | file c => exact Except.noConfusion h
    | dir es =>
      dsimp only at h
      have hname : name = tmpName pre suf (maxNameLen es + 1) := by
        have := congrArg (fun r => match r with
          | Except.ok (p : String × Node) => p.1
          | Except.error _ => name) h
        simpa using this.symm
      have hfs2 : fs2 = putNode fs ds (.dir (setEntry es
          (tmpName pre suf (maxNameLen es + 1)) (.file []))) := by
        have := congrArg (fun r => match r with
          | Except.ok (p : String × Node) => p.2
          | Except.error _ => fs2) h
        simpa using this.symm
      refine ⟨es, rfl, hname, hname ▸ findEntry_tmpName_fresh es pre suf, ?_⟩
      rw [hfs2, hname]
      exact statPath_putNode_self fs ds (.dir es) _ hst

end Store
namespace Store

/-- Success shape of `create`: the container resolved, the fresh name was
new in its listing, the returned key is the container-relative slice of the
fresh file's path, the handle is open in `w+` mode on it with the lock now
held, and the container's listing gained exactly that entry. -/
theorem create_ok (db : DB) (path : Option String) (cmp : Bool)
    (pre suf : String) (sys : Sys) (k : String) (h : Handle) (sys' : Sys)
    (hc : create db path cmp pre suf sys = (.ok (k, h), sys')) :
    ∃ dst es name,
      createDst db path = .ok dst ∧
      name = tmpName pre (if cmp && suf = "" then ".gz" else suf)
        (maxNameLen es + 1) ∧
      findEntry es name = none ∧
      k = strDrop (pjoin dst name) (db.loc.length + 1) ∧
      h = ⟨segsOf dst ++ [name], .wPlus, cmp, []⟩ ∧
      sys'.locks = (segsOf dst ++ [name]) :: sys.locks ∧
      statPath sys'.fs (segsOf dst) = .ok (.dir (setEntry es name (.file []))) ∧
      (pexists sys.fs (segsOf dst) = true →
        statPath sys.fs (segsOf dst) = .ok (.dir es)) := by
  unfold create at hc
  cases hd : createDst db path with
  | error e => rw [hd] at hc; exact absurd hc (by simp)
  | ok dst =>
    rw [hd] at hc
    dsimp only at hc
    obtain ⟨fs1, hfs1, hfs1eq⟩ : ∃ fs1,
        (if pexists sys.fs (segsOf dst) = true then (.ok sys.fs : Except Errno Node)
          else makedirs sys.fs (segsOf dst)) = .ok fs1 ∧
        (pexists sys.fs (segsOf dst) = true → fs1 = sys.fs) := by
      by_cases hex : pexists sys.fs (segsOf dst) = true
      · exact ⟨sys.fs, by rw [if_pos hex], fun _ => rfl⟩
      · cases hmk : makedirs sys.fs (segsOf dst) with
        | error e =>
          rw [if_neg hex, hmk] at hc
          exact absurd hc (by simp)
        | ok f =>
          exact ⟨f, by rw [if_neg hex], fun hex' => absurd hex' hex⟩
    rw [hfs1] at hc
    dsimp only at hc
    cases hmk : mkstemp fs1 (segsOf dst) pre
        (if cmp && suf = "" then ".gz" else suf) with
    | error e => rw [hmk] at hc; exact absurd hc (by simp)
    | ok pr =>
      obtain ⟨name, fs2⟩ := pr
      rw [hmk] at hc
      dsimp only at hc
      cases hlk : lockInOpen { sys with fs := fs2 } (segsOf dst ++ [name]) with
      | error e => rw [hlk] at hc; exact absurd hc (by simp)
      | ok sys3 =>
        rw [hlk] at hc
        dsimp only at hc
        have hk : k = strDrop (pjoin dst name) (db.loc.length + 1) := by
          have := congrArg (fun r => (r.1.toOption.map Prod.fst).getD k) hc
          simpa using this.symm
        have hh : h = ⟨segsOf dst ++ [name], .wPlus, cmp, []⟩ := by
          have := congrArg (fun r => (r.1.toOption.map Prod.snd).getD h) hc
          simpa using this.symm
        have hsys : sys3 = sys' := congrArg Prod.snd hc
        unfold lockInOpen lockOp lockf lockTranslate at hlk
        by_cases hm : segsOf dst ++ [name] ∈ sys.locks
        · simp [hm] at hlk
        · simp [hm] at hlk
          obtain ⟨es, hst1, hname, hfresh, hst2⟩ :=
            mkstemp_ok fs1 (segsOf dst) pre _ name fs2 hmk
          refine ⟨dst, es, name, rfl, hname, hfresh, hk, hh, ?_, ?_, ?_⟩
          · rw [← hsys, ← hlk]
          · rw [← hsys, ← hlk]
            exact hst2
          · intro hex'
            rw [← hfs1eq hex']
            exact hst1

end Store
namespace Store

/-- C8: two sequential `create()` calls (default prefix and suffix) with
the same container argument return two distinct key names, and each is
immediately readable and writable through the returned stream: the handle
is open in `w+` mode on the created file — which exists with empty content
in the final state — and its exclusive lock is held. -/
theorem create_unique (db : DB) (path : Option String) (cmp : Bool)
    (sys : Sys) (k1 k2 : String) (h1 h2 : Handle) (sys1 sys2 : Sys)
    (hc1 : create db path cmp "tmp" "" sys = (.ok (k1, h1), sys1))
    (hc2 : create db path cmp "tmp" "" sys1 = (.ok (k2, h2), sys2)) :
    k1 ≠ k2 ∧
    h1.mode = .wPlus ∧ h2.mode = .wPlus ∧
    h1.segs ∈ sys2.locks ∧ h2.segs ∈ sys2.locks ∧
    fileAt sys2.fs h1.segs = some [] ∧ fileAt sys2.fs h2.segs = some [] := by
  obtain ⟨dst1, es1, name1, hd1, hn1, hfr1, hk1, hh1, hlk1, hst1, hpe1⟩ :=
    create_ok db path cmp "tmp" "" sys k1 h1 sys1 hc1
  obtain ⟨dst2, es2, name2, hd2, hn2, hfr2, hk2, hh2, hlk2, hst2, hpe2⟩ :=
    create_ok db path cmp "tmp" "" sys1 k2 h2 sys2 hc2
  have hdd : dst1 = dst2 := by
    rw [hd1] at hd2
    exact Except.ok.inj hd2
  subst hdd
  have hes : es2 = setEntry es1 name1 (.file []) := by
    have hx := hpe2 (pexists_of_statPath sys1.fs (segsOf dst1) _ hst1)
    rw [hst1] at hx
    have := Except.ok.inj hx
    injection this with h'
    exact h'.symm
  have hmem1 : findEntry es2 name1 = some (.file []) := by
    rw [hes]
    exact findEntry_setEntry_self es1 name1 (.file [])
  have hle : name1.length ≤ maxNameLen es2 :=
    length_le_maxNameLen_of_findEntry es2 name1 (.file []) hmem1
  have hlen1 : name1.length =
      3 + (maxNameLen es1 + 1) + (if cmp && ("" : String) = "" then ".gz" else "").length := by
    rw [hn1, tmpName_length]
    rfl
  have hlen2 : name2.length =
      3 + (maxNameLen es2 + 1) + (if cmp && ("" : String) = "" then ".gz" else "").length := by
    rw [hn2, tmpName_length]
    rfl
  have hgt : name1.length < name2.length := by omega
  have hne12 : name1 ≠ name2 := by
    intro he
    rw [he] at hgt
    omega
  have hs1 : startsSlash name1 = false := by
    rw [hn1]
    exact tmpName_not_startsSlash _ _
  have hs2 : startsSlash name2 = false := by
    rw [hn2]
    exact tmpName_not_startsSlash _ _
  have hLd : db.loc.length ≤ dst1.length := createDst_length db path dst1 hd1
  have hkne : k1 ≠ k2 := by
    have hl1 : k1.length = (pjoin dst1 name1).length - (db.loc.length + 1) := by
      rw [hk1, strDrop_length]
    have hl2 : k2.length = (pjoin dst1 name2).length - (db.loc.length + 1) := by
      rw [hk2, strDrop_length]
    rw [pjoin_length dst1 name1 hs1] at hl1
    rw [pjoin_length dst1 name2 hs2] at hl2
    have hmin : 1 ≤ name1.length := by omega
    have : k1.length ≠ k2.length := by
      by_cases hca : dst1 = "" ∨ endsSlash dst1 = true <;>
        simp only [hca, if_true, if_false] at hl1 hl2 <;> omega
    intro he
    rw [he] at this
    exact this rfl
  refine ⟨hkne, by rw [hh1], by rw [hh2], ?_, ?_, ?_, ?_⟩
  · rw [hh1, hlk2, hlk1]
    exact List.mem_cons_of_mem _ (List.mem_cons_self _ _)
  · rw [hh2, hlk2]
    exact List.mem_cons_self _ _
  · rw [hh1]
    rw [fileAt_append_single sys2.fs (segsOf dst1) _ name1 hst2]
    rw [findEntry_setEntry_ne es2 name2 name1 (.file []) hne12, hmem1]
  · rw [hh2]
    rw [fileAt_append_single sys2.fs (segsOf dst1) _ name2 hst2]
    rw [findEntry_setEntry_self]

end Store
namespace Store

/-- The state after the first `create()` on the empty store `/s`: the
fresh key `tmpX` exists (empty) and its lock is held. -/
def sysCr1 : Sys :=
  ⟨.dir (.cons "s" (.dir (.cons "tmpX" (.file []) .nil)) .nil), [["s", "tmpX"]]⟩

/-- Witness for C8: two sequential `create()` calls on the empty store
return the distinct keys `tmpX` and `tmpXXXXX`, both locked, open in `w+`
mode and existing with empty content. -/
theorem create_unique_witness :
    ("tmpX" : String) ≠ "tmpXXXXX" ∧
    (⟨["s", "tmpX"], .wPlus, false, []⟩ : Handle).mode = .wPlus ∧
    (⟨["s", "tmpXXXXX"], .wPlus, false, []⟩ : Handle).mode = .wPlus ∧
    (⟨["s", "tmpX"], .wPlus, false, []⟩ : Handle).segs ∈
      (create dbS none false "tmp" "" sysCr1).2.locks ∧
    (⟨["s", "tmpXXXXX"], .wPlus, false, []⟩ : Handle).segs ∈
      (create dbS none false "tmp" "" sysCr1).2.locks ∧
    fileAt (create dbS none false "tmp" "" sysCr1).2.fs ["s", "tmpX"] = some [] ∧
    fileAt (create dbS none false "tmp" "" sysCr1).2.fs ["s", "tmpXXXXX"] =
      some [] :=
  create_unique dbS none false sysEmpty "tmpX" "tmpXXXXX"
    ⟨["s", "tmpX"], .wPlus, false, []⟩ ⟨["s", "tmpXXXXX"], .wPlus, false, []⟩
    sysCr1 (create dbS none false "tmp" "" sysCr1).2 (by rfl) (by rfl)

end Store
namespace Store

/-- Declarative semantics of the anchored matcher: `AcceptsExact toks n t r`
holds when, starting at position `n` of the candidate string with `t ++ r`
remaining, the pattern consumes exactly `t` and leaves `r`.  An exhausted
pattern consumes nothing more (the leftover `r` is the unmatched suffix —
`re.match` accepts any prefix); `^` holds only at position 0 and consumes
nothing; `$` holds only when nothing remains. -/
inductive AcceptsExact : List Tok → Nat → List Char → List Char → Prop where
  | nil (n : Nat) (r : List Char) : AcceptsExact [] n [] r
  | bol (ps : List Tok) (t r : List Char) :
      AcceptsExact ps 0 t r → AcceptsExact (.bol :: ps) 0 t r
  | eol (ps : List Tok) (n : Nat) :
      AcceptsExact ps n [] [] → AcceptsExact (.eol :: ps) n [] []
  | one (a : Atom) (c : Char) (ps : List Tok) (n : Nat) (t r : List Char) :
      amatch a c = true → AcceptsExact ps (n + 1) t r →
      AcceptsExact (.tok a false :: ps) n (c :: t) r
  | starSkip (a : Atom) (ps : List Tok) (n : Nat) (t r : List Char) :
      AcceptsExact ps n t r → AcceptsExact (.tok a true :: ps) n t r
  | starCons (a : Atom) (c : Char) (ps : List Tok) (n : Nat) (t r : List Char) :
      amatch a c = true → AcceptsExact (.tok a true :: ps) (n + 1) t r →
      AcceptsExact (.tok a true :: ps) n (c :: t) r

theorem matchToksF_sound : ∀ (f : Nat) (toks : List Tok) (n : Nat)
    (s : List Char), matchToksF f toks n s = true →
      ∃ t r, s = t ++ r ∧ AcceptsExact toks n t r := by
  intro f
  induction f with
  | zero =>
    intro toks n s h
    cases toks with
    | nil => exact ⟨[], s, rfl, .nil n s⟩
    | cons p ps => simp [matchToksF] at h
  | succ f ih =>
    intro toks n s h
    match toks with
    | [] => exact ⟨[], s, rfl, .nil n s⟩
    | .bol :: ps =>
      rw [matchToksF.eq_def] at h
      dsimp only at h
      simp only [Bool.and_eq_true, beq_iff_eq] at h
      obtain ⟨hn, h2⟩ := h
      subst hn
      obtain ⟨t, r, hs, hacc⟩ := ih ps 0 s h2
      exact ⟨t, r, hs, .bol ps t r hacc⟩
    | .eol :: ps =>
      rw [matchToksF.eq_def] at h
      dsimp only at h
      simp only [Bool.and_eq_true, List.isEmpty_iff] at h
      obtain ⟨t, r, hs, hacc⟩ := ih ps n s h.2
      rcases h with ⟨rfl, -⟩
      obtain ⟨rfl, rfl⟩ := List.append_eq_nil.mp hs.symm
      exact ⟨[], [], rfl, .eol ps n hacc⟩
    | .tok a false :: ps =>
      rw [matchToksF.eq_def] at h
      dsimp only at h
      cases s with
      | nil => simp at h
      | cons c cs =>
        simp only [Bool.and_eq_true] at h
        obtain ⟨t, r, hs, hacc⟩ := ih ps (n + 1) cs h.2
        exact ⟨c :: t, r, by rw [hs, List.cons_append], .one a c ps n t r h.1 hacc⟩
    | .tok a true :: ps =>
      rw [matchToksF.eq_def] at h
      dsimp only at h
      rw [Bool.or_eq_true] at h
      rcases h with h1 | h2
      · obtain ⟨t, r, hs, hacc⟩ := ih ps n s h1
        exact ⟨t, r, hs, .starSkip a ps n t r hacc⟩
      · cases s with
        | nil => simp at h2
        | cons c cs =>
          simp only [Bool.and_eq_true] at h2
          obtain ⟨t, r, hs, hacc⟩ := ih (.tok a true :: ps) (n + 1) cs h2.2
          exact ⟨c :: t, r, by rw [hs, List.cons_append],
            .starCons a c ps n t r h2.1 hacc⟩

theorem matchToksF_complete {toks : List Tok} {n : Nat} {t r : List Char}
    (hacc : AcceptsExact toks n t r) :
    ∀ f, t.length + toks.length < f → matchToksF f toks n (t ++ r) = true := by
  induction hacc with
  | nil n r => intro f _; cases f <;> rfl
  | bol ps t r _ ih =>
    intro f hf
    match f with
    | 0 => omega
    | f + 1 =>
      show ((0 == 0 : Bool) && matchToksF f ps 0 (t ++ r)) = true
      rw [ih f (by simp only [List.length_cons] at hf; omega)]
      rfl
  | eol ps n _ ih =>
    intro f hf
    match f with
    | 0 => omega
    | f + 1 =>
      have h2 := ih f (by simp only [List.length_cons] at hf; omega)
      simp only [List.nil_append] at h2
      show (true && matchToksF f ps n []) = true
      rw [h2]
      rfl
  | one a c ps n t r ham _ ih =>
    intro f hf
    match f with
    | 0 => omega
    | f + 1 =>
      show (amatch a c && matchToksF f ps (n + 1) (t ++ r)) = true
      rw [ham, ih f (by simp only [List.length_cons] at hf; omega)]
      rfl
  | starSkip a ps n t r _ ih =>
    intro f hf
    match f with
    | 0 => omega
    | f + 1 =>
      show (matchToksF f ps n (t ++ r) || _) = true
      rw [ih f (by simp only [List.length_cons] at hf; omega), Bool.true_or]
  | starCons a c ps n t r ham _ ih =>
    intro f hf
    match f with
    | 0 => omega
    | f + 1 =>
      show (matchToksF f ps n (c :: (t ++ r)) ||
        (amatch a c && matchToksF f (.tok a true :: ps) (n + 1) (t ++ r))) = true
      rw [ham, ih f (by simp only [List.length_cons] at hf ⊢; omega)]
      simp

/-- Correctness of the anchored matcher: a parsed pattern accepts a string
exactly when it matches some prefix of it (with `$` judged against the end
of the whole string).  This is `re.match` semantics: anchored at the start,
not a search, not a full match. -/
theorem reMatch_prefix_iff (toks : List Tok) (s : String) :
    reMatch toks s = true ↔
      ∃ t r, s.data = t ++ r ∧ AcceptsExact toks 0 t r := by
  constructor
  · exact fun h => matchToksF_sound _ toks 0 s.data h
  · rintro ⟨t, r, hs, hacc⟩
    unfold reMatch
    rw [hs]
    refine matchToksF_complete hacc _ ?_
    simp [List.length_append]
    omega

end Store
namespace Store

/-- C10: `find`'s pattern test is `RE.match` — anchored at the start of the
matched string, accepting any prefix (not a search, not a full match): a
candidate is yielded exactly when it is enumerated by the walk and some
prefix of its matched string (the full key when `match_path` is true, the
final segment otherwise) is consumed by the pattern, with `$` judged
against the end of the whole string. -/
theorem find_prefix_match (db : DB) (pattern dst : String) (toks : List Tok)
    (path : Option String) (mp : Bool) (sys : Sys) (res : List String)
    (hd : findDst db path = .ok dst)
    (hp : parsePat pattern.data = some toks)
    (hf : findOp db pattern path mp sys = .ok res) (s : String) :
    s ∈ res ↔ ∃ fn, (s, fn) ∈ findCandidates dst path sys.fs ∧
      ∃ t r, (if mp then s else fn).data = t ++ r ∧ AcceptsExact toks 0 t r := by
  unfold findOp at hf
  rw [hd, hp] at hf
  dsimp only at hf
  have hres : res = (findCandidates dst path sys.fs).filterMap
      (fun c => if reMatch toks (if mp then c.1 else c.2) then some c.1 else none) :=
    (Except.ok.inj hf).symm
  subst hres
  rw [List.mem_filterMap]
  constructor
  · rintro ⟨c, hc, hmatch⟩
    by_cases hr : reMatch toks (if mp then c.1 else c.2) = true
    · rw [if_pos hr] at hmatch
      have hcs : c.1 = s := Option.some.inj hmatch
      obtain ⟨t, r, hsplit, hacc⟩ := (reMatch_prefix_iff toks _).mp hr
      refine ⟨c.2, ?_, t, r, ?_, hacc⟩
      · have : (s, c.2) = c := by rw [← hcs]
        rw [this]
        exact hc
      · rw [← hcs]
        exact hsplit
    · rw [if_neg hr] at hmatch
      exact absurd hmatch (by simp)
  · rintro ⟨fn, hc, t, r, hsplit, hacc⟩
    refine ⟨(s, fn), hc, ?_⟩
    have hr : reMatch toks (if mp then (s, fn).1 else (s, fn).2) = true := by
      apply (reMatch_prefix_iff _ _).mpr
      cases mp with
      | true => exact ⟨t, r, by simpa using hsplit, hacc⟩
      | false => exact ⟨t, r, by simpa using hsplit, hacc⟩
    rw [if_pos hr]

/-- Witness for C10 at a concrete input: over the three-key store, pattern
`x$` with `match_path` false yields `a/x`, characterized by the prefix
semantics (the whole segment `x` is the consumed prefix). -/
theorem find_prefix_match_witness :
    ("a/x" ∈ ["a/x", "b/x"]) ↔ ∃ fn,
      (("a/x" : String), fn) ∈ findCandidates "/s" none sysFind.fs ∧
      ∃ t r, (if false then ("a/x" : String) else fn).data = t ++ r ∧
        AcceptsExact [.tok (.ach 'x') false, .eol] 0 t r :=
  find_prefix_match dbS "x$" "/s" [.tok (.ach 'x') false, .eol] none false
    sysFind ["a/x", "b/x"] (by rfl) (by rfl) (by rfl) "a/x"

end Store
